import Mathlib

/-!
Verification of the VibeGameDB autocomplete/search core.

This file gives a shallow embedding, in Lean, of the search subsystem of
`src/handlers/database_handler.py`:

* the query normalizer `_normalize_name`,
* the `difflib.SequenceMatcher`-based similarity ratio used for scoring,
* the scoring helpers `_fuzzy_match_score` and `_fuzzy_match_words`,
* the three-stage `_autocomplete` pipeline (exact/prefix, word-fuzzy,
  character-fuzzy) with its dedup/merge/truncate policy,
* the schema triggers that keep the `search_idx` table in sync with the
  `games`/`platforms` tables.

Strings are modelled as `List Char` over the ASCII fragment of Python's
character classes (`\w`, `\s`, `str.lower`); scores are modelled as exact
rationals (`ℚ`) instead of IEEE floats.  The FTS5 MATCH engine is external
to the repository, so the pipeline is parametrised by an oracle
`fts : Str → List Row` giving the ranked rows the index returns for a MATCH
term; SQL `LIMIT`/`ORDER BY` clauses that appear in the handler's own SQL
are part of the embedding.
-/

/-- Python strings, modelled as lists of characters. -/
abbrev Str := List Char

/-- ASCII fragment of Python's whitespace class `\s` (and of the default
`str.strip`/`str.split` separator set). -/
def isPySpace (c : Char) : Bool :=
  c = ' ' || c = '\t' || c = '\n' || c = '\r' || c = '\x0b' || c = '\x0c'

/-- ASCII fragment of Python's word-character class `\w`. -/
def isWordChar (c : Char) : Bool :=
  c.isAlpha || c.isDigit || c = '_'

/-- ASCII fragment of Python's `str.lower`: map `A`-`Z` to `a`-`z`. -/
def lowerChar (c : Char) : Char :=
  if 65 ≤ c.toNat ∧ c.toNat ≤ 90 then Char.ofNat (c.toNat + 32) else c

/-- Python's `str.strip()`: drop leading and trailing whitespace. -/
def pyStrip (s : Str) : Str :=
  List.rdropWhile isPySpace (List.dropWhile isPySpace s)

/-- One pass of `re.sub(r'\s+', ' ', ...)`: the flag records whether the
previous character was part of a whitespace run. -/
def collapseAux : Bool → Str → Str
  | _, [] => []
  | prevSpace, c :: rest =>
    if isPySpace c then
      if prevSpace then collapseAux true rest
      else ' ' :: collapseAux true rest
    else c :: collapseAux false rest

/-- `re.sub(r'\s+', ' ', s)`: replace each maximal whitespace run by a
single space. -/
def collapseSpaces (s : Str) : Str := collapseAux false s

/-- Helper for `pySplit`: `acc` is the (reversed) word currently being read. -/
def splitAux : Str → Str → List Str
  | [], acc => if acc = [] then [] else [acc.reverse]
  | c :: rest, acc =>
    if isPySpace c then
      if acc = [] then splitAux rest []
      else acc.reverse :: splitAux rest []
    else splitAux rest (c :: acc)

/-- Python's `str.split()`: split on whitespace runs, dropping empty parts. -/
def pySplit (s : Str) : List Str := splitAux s []

/-- The leading-article alternatives of the regex
`^(a|an|the|le|la|l')\s+` in `_normalize_name`, in alternation order. -/
def articles : List Str :=
  [("a").toList, ("an").toList, ("the").toList, ("le").toList,
   ("la").toList, (("l") ++ "\x27").toList]

/-- Does the article `art`, followed by at least one whitespace character,
open the string `s`?  (This is when the anchored regex alternative fires.) -/
def articleFires (art s : Str) : Bool :=
  art.isPrefixOf s &&
    match s.drop art.length with
    | c :: _ => isPySpace c
    | [] => false

/-- `re.sub(r"^(a|an|the|le|la|l')\s+", '', s)`: remove one leading article
token together with the whitespace run after it (the `\s+` is greedy and the
pattern is anchored, so at most one substitution happens). -/
def stripArticle (s : Str) : Str :=
  match articles.find? (fun art => articleFires art s) with
  | some art => (s.drop art.length).dropWhile isPySpace
  | none => s

/-- `re.sub(r'[^\w\s]', ' ', s)`: replace every character that is neither a
word character nor whitespace by a single space. -/
def punctToSpace (s : Str) : Str :=
  s.map (fun c => if isWordChar c || isPySpace c then c else ' ')

/-- Embedding of `_normalize_name` (database_handler.py:726): lowercase,
strip, drop one leading article, replace punctuation by spaces, collapse
whitespace runs, strip. -/
def normalizeName (name : Str) : Str :=
  if name = [] then []
  else pyStrip (collapseSpaces (punctToSpace (stripArticle (pyStrip (name.map lowerChar)))))

example : normalizeName (("The Legend of Zelda").toList) = ("legend of zelda").toList := by decide
example : normalizeName (("a.b").toList) = ("a b").toList := by decide
example : normalizeName (("a b").toList) = ("b").toList := by decide

/-- Length of the longest common prefix of two strings. -/
def commonPrefixLen : Str → Str → Nat
  | x :: xs, y :: ys => if x = y then commonPrefixLen xs ys + 1 else 0
  | _, _ => 0

/-- All triples `(i, j, commonPrefixLen (a.drop i) (b.drop j))`, in
lexicographic `(i, j)` order - the scan order of difflib's
`find_longest_match` inner loop. -/
def flmCandidates (a b : Str) : List (Nat × Nat × Nat) :=
  (List.range a.length).flatMap (fun i =>
    (List.range b.length).map (fun j => (i, j, commonPrefixLen (a.drop i) (b.drop j))))

/-- Embedding of `difflib.SequenceMatcher.find_longest_match` (with no junk,
which is the case for the strings this code scores): the longest matching
block, with ties resolved to the lexicographically first `(i, j)`, as the
strict-improvement scan does. -/
def findLongestMatch (a b : Str) : Nat × Nat × Nat :=
  (flmCandidates a b).foldl (fun best c => if best.2.2 < c.2.2 then c else best) (0, 0, 0)

/-- Total size of the matching blocks of `difflib.get_matching_blocks`:
recursively take the longest match and recurse left and right of it.  The
`fuel` argument only makes the recursion structural; each recursive call
strictly shrinks the first string, so `a.length + 1` fuel never runs out. -/
def matchesTotalFuel : Nat → Str → Str → Nat
  | 0, _, _ => 0
  | fuel + 1, a, b =>
    let m := findLongestMatch a b
    if m.2.2 = 0 then 0
    else
      m.2.2 + matchesTotalFuel fuel (a.take m.1) (b.take m.2.1) +
        matchesTotalFuel fuel (a.drop (m.1 + m.2.2)) (b.drop (m.2.1 + m.2.2))

/-- `M`: the number of matched elements between `a` and `b`. -/
def matchesTotal (a b : Str) : Nat := matchesTotalFuel (a.length + 1) a b

/-- `difflib.SequenceMatcher.ratio()`: `2·M / (len(a) + len(b))`
(`_calculate_ratio` returns `1.0` when both strings are empty). -/
def ratio (a b : Str) : ℚ :=
  if a.length + b.length = 0 then 1
  else (2 * matchesTotal a b : ℚ) / (a.length + b.length)

example : ratio (("abcd").toList) (("abxy").toList) = 1/2 := by with_unfolding_all decide

set_option maxRecDepth 4000 in
example : ratio (("eldn").toList) (("eldenring").toList) = 8/13 := by with_unfolding_all decide

/-- Embedding of `_fuzzy_match_score` (database_handler.py:742): `None` on an
empty argument, otherwise the similarity ratio when it reaches `threshold`,
else `None`. -/
def fuzzyMatchScore (query target : Str) (threshold : ℚ) : Option ℚ :=
  if query = [] ∨ target = [] then none
  else if threshold ≤ ratio query target then some (ratio query target) else none

/-- The update guard of the inner loop of `_fuzzy_match_words`:
`best_score is None or score > best_score`. -/
def beats (s : ℚ) : Option ℚ → Bool
  | none => true
  | some b => decide (b < s)

/-- Inner loop of `_fuzzy_match_words`: best score of `qword` against the
target words, under the hard-coded per-word threshold `0.5`.  The guard
`if score and ...` also tests Python truthiness of the score, hence the
`s ≠ 0` conjunct. -/
def bestLoop (qword : Str) : List Str → Option ℚ → Option ℚ
  | [], best => best
  | tword :: rest, best =>
    match fuzzyMatchScore qword tword (1/2) with
    | none => bestLoop qword rest best
    | some s =>
      if s ≠ 0 ∧ beats s best then bestLoop qword rest (some s)
      else bestLoop qword rest best

/-- Outer loop of `_fuzzy_match_words`: every query word must attain some
best score, and the result is the mean of the collected best scores.  Note
that the collected mean is returned as is: it is never compared against the
function's `threshold` parameter. -/
def wordsLoop (targetWords : List Str) : List Str → List ℚ → Option ℚ
  | [], scores => if scores = [] then none else some (scores.sum / scores.length)
  | qword :: rest, scores =>
    match bestLoop qword targetWords none with
    | none => none
    | some b => wordsLoop targetWords rest (scores ++ [b])

/-- Embedding of `_fuzzy_match_words` (database_handler.py:771).  The
`threshold` parameter is faithfully accepted and, like in the source, never
used: the per-word comparisons use the hard-coded `0.5`, and the returned
mean is not filtered. -/
def fuzzyMatchWords (queryWords : List Str) (target : Str) (threshold : ℚ) : Option ℚ :=
  if queryWords = [] ∨ target = [] then none
  else wordsLoop (pySplit target) queryWords []

/-- Python's `max` over a list of scores (`None` when the list is empty,
matching the `if valid_scores:` / `if all_scores:` guards). -/
def listMax : List ℚ → Option ℚ
  | [] => none
  | x :: xs =>
    match listMax xs with
    | none => some x
    | some m => some (max x m)

/-- `str.replace(' ', '')`: remove space characters (only `U+0020`). -/
def removeSpaces (s : Str) : Str := s.filter (fun c => c != ' ')

/-- The qualifying strategy values for one Stage 3 candidate
(database_handler.py:666-698): strategy A (compact character match,
threshold `0.6`), strategy B (word-average via `_fuzzy_match_words`), and
strategy C (best single-word match, single-word queries only, threshold
`0.6`), keeping only the strategies that produced a score (`all_scores`). -/
def strategyScores (normalizedQuery : Str) (queryWords : List Str) (name : Str) : List ℚ :=
  let normalizedName := normalizeName name
  let targetWords := pySplit normalizedName
  let charScore := fuzzyMatchScore (removeSpaces normalizedQuery) (removeSpaces normalizedName) (3/5)
  let wordScore := fuzzyMatchWords queryWords normalizedName (3/5)
  let singleBest :=
    if queryWords.length = 1 then
      listMax (targetWords.filterMap (fun tword => fuzzyMatchScore (queryWords.headD []) tword (3/5)))
    else none
  [charScore, wordScore, singleBest].filterMap id

/-- Stage 3 scoring for one candidate: `max(all_scores)` when `all_scores`
is nonempty, `None` when no strategy produced a score. -/
def bestScore3 (normalizedQuery : Str) (queryWords : List Str) (name : Str) : Option ℚ :=
  listMax (strategyScores normalizedQuery queryWords name)

/-- Round half to even, the tie-breaking rule of Python's `round`. -/
def roundHalfEven (q : ℚ) : ℤ :=
  if q - ⌊q⌋ < 1/2 then ⌊q⌋
  else if (1 : ℚ)/2 < q - ⌊q⌋ then ⌊q⌋ + 1
  else if ⌊q⌋ % 2 = 0 then ⌊q⌋ else ⌊q⌋ + 1

/-- Python's `round(x, 2)`, modelled as exact half-even rounding of the
rational score to two decimals (the source rounds the IEEE double nearest to
the score; for the bounds proved here the two agree). -/
def roundQ2 (q : ℚ) : ℚ := (roundHalfEven (100 * q) : ℚ) / 100

example : fuzzyMatchWords [("abcd").toList] (("abxy").toList) (3/5) = some (1/2) := by
  with_unfolding_all decide
example : roundQ2 (8/13) = 62/100 := by with_unfolding_all decide

/-- A `search_idx` row id: games use integer ids, platforms use text ids. -/
abbrev Ident := Sum Nat Str

instance : BEq Ident := instBEqOfDecidableEq

instance : LawfulBEq Ident where
  eq_of_beq h := of_decide_eq_true h
  rfl := by simp [instBEqOfDecidableEq, BEq.beq]

/-- A row of the `search_idx` FTS table (`row_id`, `item_type`, `name`,
`context`); `context` is nullable. -/
structure Row where
  row_id : Ident
  item_type : Str
  name : Str
  context : Option Str
deriving DecidableEq

/-- An autocomplete suggestion as built by `_autocomplete`. -/
structure Suggestion where
  id : Ident
  type : Str
  name : Str
  context : Option Str
  match_type : Str
  score : ℚ
deriving DecidableEq

/-- The dedup key of a row.  The source keys its `seen_ids` set by the string
`f"{item_type}-{row_id}"`; since the item types (`game`, `platform`, `tag`)
contain no `-` and row ids render injectively, that string determines and is
determined by this pair. -/
def keyOf (r : Row) : Str × Ident := (r.item_type, r.row_id)

/-- The `(type, id)` key of an emitted suggestion. -/
def sugKey (s : Suggestion) : Str × Ident := (s.type, s.id)

/-- Build the suggestion dict for a row with the given tag and score. -/
def mkSug (r : Row) (tag : Str) (score : ℚ) : Suggestion :=
  ⟨r.row_id, r.item_type, r.name, r.context, tag, score⟩

/-- The shared loop shape of Stages 1 and 2: append a suggestion for every
row whose key has not been seen, recording keys in the seen list. -/
def dedupAppend (tag : Str) (score : ℚ) :
    List Row → List Suggestion × List (Str × Ident) → List Suggestion × List (Str × Ident)
  | [], st => st
  | r :: rest, (sugs, seen) =>
    if keyOf r ∈ seen then dedupAppend tag score rest (sugs, seen)
    else dedupAppend tag score rest (sugs ++ [mkSug r tag score], seen ++ [keyOf r])

/-- Stage 1 MATCH term: the raw (stripped, non-normalized) query with a
trailing prefix wildcard, `f'{query}*'`. -/
def exactTerm (query : Str) : Str := query ++ ("*").toList

/-- `sep.join(words)`. -/
def joinSep (sep : Str) : List Str → Str
  | [] => []
  | [w] => w
  | w :: ws => w ++ sep ++ joinSep sep ws

/-- Stage 2 MATCH term: `f"({or_terms}) OR \"{query}*\""` where `or_terms`
is the `' OR '`-join of the normalized query words. -/
def fuzzyTerm (query : Str) (queryWords : List Str) : Str :=
  ("(").toList ++ joinSep ((" OR ").toList) queryWords ++ (") OR \x22").toList
    ++ query ++ ("*\x22").toList

/-- Tag constants. -/
def tagExact : Str := ("fts_exact_prefix").toList

def tagWord : Str := ("fts_word_fuzzy").toList

def tagChar : Str := ("char_fuzzy").toList

/-- Stage 1 (database_handler.py:584-613): take up to `2·limit` ranked index
hits for the prefix term and dedup them into suggestions with score `1.0`. -/
def stage1State (fts : Str → List Row) (query : Str) (limit : Nat) :
    List Suggestion × List (Str × Ident) :=
  dedupAppend tagExact 1 ((fts (exactTerm query)).take (limit * 2)) ([], [])

/-- Stage 2 (database_handler.py:615-646): only when Stage 1 produced fewer
than `limit` suggestions, take up to `3·limit` ranked hits for the
disjunctive term and append the unseen ones with score `0.8`. -/
def stage2State (fts : Str → List Row) (query : Str) (queryWords : List Str) (limit : Nat)
    (st : List Suggestion × List (Str × Ident)) : List Suggestion × List (Str × Ident) :=
  if st.1.length < limit then
    dedupAppend tagWord (4/5) ((fts (fuzzyTerm query queryWords)).take (limit * 3)) st
  else st

/-- The Stage 3 scan (database_handler.py:652-711): all game/platform index
rows not already seen, scored by `bestScore3`; rows with no qualifying
strategy are dropped, the rest are tagged `char_fuzzy` with their best score
rounded to two decimals. -/
def stage3Candidates (allRows : List Row) (seen : List (Str × Ident))
    (normalizedQuery : Str) (queryWords : List Str) : List Suggestion :=
  ((allRows.filter (fun r =>
      decide (r.item_type = ("game").toList ∨ r.item_type = ("platform").toList))).filter
    (fun r => decide (¬ keyOf r ∈ seen))).filterMap
    (fun r => (bestScore3 normalizedQuery queryWords r.name).map
      (fun s => mkSug r tagChar (roundQ2 s)))

/-- Stable descending insertion: `x` goes in front of the first element
whose score does not exceed it.  This reproduces Python's stable
`sort(key=score, reverse=True)`. -/
def insertDesc (x : Suggestion) : List Suggestion → List Suggestion
  | [] => [x]
  | y :: ys => if y.score ≤ x.score then x :: y :: ys else y :: insertDesc x ys

/-- Stable sort by score descending, ties keeping list order. -/
def sortDesc (l : List Suggestion) : List Suggestion := l.foldr insertDesc []

/-- The Stage 3 append loop (database_handler.py:717-720): append sorted
candidates until the suggestion list reaches `limit`. -/
def takeUntilLimit (limit : Nat) : List Suggestion → List Suggestion → List Suggestion
  | acc, [] => acc
  | acc, c :: cs => if limit ≤ acc.length then acc else takeUntilLimit limit (acc ++ [c]) cs

/-- Stage 3 entry (database_handler.py:648-720): runs only when the previous
stages produced fewer than `limit` suggestions. -/
def stage3Apply (allRows : List Row) (normalizedQuery : Str) (queryWords : List Str)
    (limit : Nat) (st : List Suggestion × List (Str × Ident)) : List Suggestion :=
  if st.1.length < limit then
    takeUntilLimit limit st.1 (sortDesc (stage3Candidates allRows st.2 normalizedQuery queryWords))
  else st.1

/-- Embedding of `_autocomplete` (database_handler.py:565-724), parametrised
by the FTS oracle `fts` (ranked rows the index returns for a MATCH term) and
by the full table contents `allRows` (the Stage 3 scan, in index order). -/
def autocomplete (fts : Str → List Row) (allRows : List Row) (q : Str) (limit : Nat) :
    List Suggestion :=
  let query := pyStrip q
  if query = [] then []
  else
    let nq := normalizeName query
    let qws := pySplit nq
    (stage3Apply allRows nq qws limit
      (stage2State fts query qws limit (stage1State fts query limit))).take limit

/-- The columns of a `games` row that feed the search index (id, name, and
the context sources description/genre/developer/publisher). -/
structure Game where
  id : Nat
  name : Str
  description : Option Str
  genre : Option Str
  developer : Option Str
  publisher : Option Str
deriving DecidableEq

/-- The columns of a `platforms` row that feed the search index. -/
structure Platform where
  id : Str
  name : Str
  description : Option Str
  manufacturer : Option Str
deriving DecidableEq

/-- The game trigger context expression
`new.description || ' ' || IFNULL(new.genre,'') || ' ' || IFNULL(new.developer,'') || ' ' || IFNULL(new.publisher,'')`:
SQL `||` propagates NULL, so the result is NULL exactly when `description`
is NULL. -/
def ctxGame (g : Game) : Option Str :=
  g.description.map (fun d =>
    d ++ (" ").toList ++ g.genre.getD [] ++ (" ").toList ++ g.developer.getD []
      ++ (" ").toList ++ g.publisher.getD [])

/-- The platform trigger context expression
`new.description || ' ' || IFNULL(new.manufacturer,'')`. -/
def ctxPlatform (p : Platform) : Option Str :=
  p.description.map (fun d => d ++ (" ").toList ++ p.manufacturer.getD [])

/-- The index row the `games_after_insert` trigger writes. -/
def gameIdxRow (g : Game) : Row := ⟨Sum.inl g.id, ("game").toList, g.name, ctxGame g⟩

/-- The index row the `platforms_after_insert` trigger writes. -/
def platformIdxRow (p : Platform) : Row :=
  ⟨Sum.inr p.id, ("platform").toList, p.name, ctxPlatform p⟩

/-- The database state relevant to search: the two catalog tables and the
`search_idx` table. -/
structure DbState where
  games : List Game
  platforms : List Platform
  idx : List Row

/-- `_create_game` + `games_after_insert`: one unit of work appends the game
row and its index row.  (AUTOINCREMENT freshness of the id is a hypothesis
of the sync theorem.) -/
def insertGame (g : Game) (s : DbState) : DbState :=
  { s with games := s.games ++ [g], idx := s.idx ++ [gameIdxRow g] }

/-- `_update_game` + `games_after_update`: if the id exists, apply the
column updates `u` to that game and rewrite the name/context of its index
row from the new values; a missing id is a no-op (the handler returns 404
before issuing any UPDATE).  `id` is not an editable column, so
`(u g).id = g.id` is a hypothesis of the sync theorem. -/
def updateGame (gid : Nat) (u : Game → Game) (s : DbState) : DbState :=
  match s.games.find? (fun g => decide (g.id = gid)) with
  | none => s
  | some g =>
    { s with
      games := s.games.map (fun h => if h.id = gid then u h else h),
      idx := s.idx.map (fun r =>
        if r.row_id = Sum.inl gid ∧ r.item_type = ("game").toList then
          ⟨r.row_id, r.item_type, (u g).name, ctxGame (u g)⟩
        else r) }

/-- `_delete_game` + `games_after_delete`: if the id exists, remove the game
row and every index row with `row_id = old.id AND item_type = 'game'`. -/
def deleteGame (gid : Nat) (s : DbState) : DbState :=
  if s.games.any (fun g => decide (g.id = gid)) then
    { s with
      games := s.games.filter (fun g => decide (¬ g.id = gid)),
      idx := s.idx.filter (fun r =>
        decide (¬ (r.row_id = Sum.inl gid ∧ r.item_type = ("game").toList))) }
  else s

/-- `_create_platform` + `platforms_after_insert`: the INSERT raises
`IntegrityError` (handler: 400, nothing committed) when the primary key or
the UNIQUE name collides; otherwise one unit of work appends the platform
and its index row. -/
def insertPlatform (p : Platform) (s : DbState) : DbState :=
  if s.platforms.any (fun q => decide (q.id = p.id ∨ q.name = p.name)) then s
  else { s with platforms := s.platforms ++ [p], idx := s.idx ++ [platformIdxRow p] }

/-- `_update_platform` + `platforms_after_update` (success path). -/
def updatePlatform (pid : Str) (u : Platform → Platform) (s : DbState) : DbState :=
  match s.platforms.find? (fun p => decide (p.id = pid)) with
  | none => s
  | some p =>
    { s with
      platforms := s.platforms.map (fun q => if q.id = pid then u q else q),
      idx := s.idx.map (fun r =>
        if r.row_id = Sum.inr pid ∧ r.item_type = ("platform").toList then
          ⟨r.row_id, r.item_type, (u p).name, ctxPlatform (u p)⟩
        else r) }

/-- `_delete_platform` + `platforms_after_delete` (the deleting path; the
404 and orphan-veto paths leave the state untouched). -/
def deletePlatform (pid : Str) (s : DbState) : DbState :=
  if s.platforms.any (fun p => decide (p.id = pid)) then
    { s with
      platforms := s.platforms.filter (fun p => decide (¬ p.id = pid)),
      idx := s.idx.filter (fun r =>
        decide (¬ (r.row_id = Sum.inr pid ∧ r.item_type = ("platform").toList))) }
  else s

/-- The index synchronization invariant of spec §3: the `search_idx` rows
are exactly one trigger-written row per catalog entity (same multiset), and
catalog ids are unique. -/
def Synced (s : DbState) : Prop :=
  s.idx.Perm (s.games.map gameIdxRow ++ s.platforms.map platformIdxRow)
    ∧ (s.games.map Game.id).Nodup ∧ (s.platforms.map Platform.id).Nodup

/-! ### Character-level lemmas -/

theorem lowerChar_of_not {c : Char} (h : ¬(65 ≤ c.toNat ∧ c.toNat ≤ 90)) : lowerChar c = c := by
  unfold lowerChar
  exact if_neg h

theorem lowerChar_toNat_of_upper {c : Char} (h : 65 ≤ c.toNat ∧ c.toNat ≤ 90) :
    (lowerChar c).toNat = c.toNat + 32 := by
  unfold lowerChar
  rw [if_pos h]
  have hv : (c.toNat + 32).isValidChar := Or.inl (by omega)
  rw [Char.ofNat, dif_pos hv]
  rfl

theorem lowerChar_idem (c : Char) : lowerChar (lowerChar c) = lowerChar c := by
  by_cases h : 65 ≤ c.toNat ∧ c.toNat ≤ 90
  · apply lowerChar_of_not
    rw [lowerChar_toNat_of_upper h]
    omega
  · rw [lowerChar_of_not h, lowerChar_of_not h]

theorem pyspace_not_word {c : Char} (h : isPySpace c = true) : isWordChar c = false := by
  unfold isPySpace at h
  simp only [Bool.or_eq_true, decide_eq_true_eq] at h
  rcases h with ((((h | h) | h) | h) | h) | h <;> subst h <;> decide

/-! ### `pyStrip` lemmas -/

theorem head?_dropWhile {p : Char → Bool} :
    ∀ {s : Str} {c : Char}, (List.dropWhile p s).head? = some c → p c = false := by
  intro s
  induction s with
  | nil => intro c h; simp [List.dropWhile] at h
  | cons d rest ih =>
    intro c h
    by_cases hd : p d
    · rw [List.dropWhile_cons_of_pos hd] at h
      exact ih h
    · rw [List.dropWhile_cons_of_neg hd] at h
      simp only [List.head?_cons, Option.some.injEq] at h
      subst h
      exact Bool.eq_false_iff.mpr hd

theorem dropWhile_eq_self_of_head {p : Char → Bool} {s : Str}
    (h : ∀ c, s.head? = some c → p c = false) : List.dropWhile p s = s := by
  cases s with
  | nil => rfl
  | cons d rest =>
    have := h d (by simp)
    simp [List.dropWhile_cons, this]

theorem mem_pyStrip {s : Str} {c : Char} (h : c ∈ pyStrip s) : c ∈ s := by
  unfold pyStrip at h
  have h1 : c ∈ List.dropWhile isPySpace s :=
    (List.rdropWhile_prefix _ _).sublist.mem h
  exact (List.dropWhile_suffix _).sublist.mem h1

theorem head?_pyStrip {s : Str} {c : Char} (h : (pyStrip s).head? = some c) :
    isPySpace c = false := by
  unfold pyStrip at h
  cases hn : List.rdropWhile isPySpace (List.dropWhile isPySpace s) with
  | nil => rw [hn] at h; simp at h
  | cons a u =>
    rw [hn] at h
    simp only [List.head?_cons, Option.some.injEq] at h
    subst h
    obtain ⟨t, ht⟩ := List.rdropWhile_prefix isPySpace (List.dropWhile isPySpace s)
    have ha : (List.dropWhile isPySpace s).head? = some a := by
      rw [← ht, hn]
      simp
    exact head?_dropWhile ha

theorem getLast?_pyStrip {s : Str} {c : Char} (h : (pyStrip s).getLast? = some c) :
    isPySpace c = false := by
  unfold pyStrip at h
  have hne : List.rdropWhile isPySpace (List.dropWhile isPySpace s) ≠ [] := by
    intro he
    rw [he] at h
    simp at h
  have := List.rdropWhile_last_not isPySpace (List.dropWhile isPySpace s) hne
  rw [List.getLast?_eq_getLast _ hne] at h
  simp only [Option.some.injEq] at h
  subst h
  exact Bool.eq_false_iff.mpr this

theorem pyStrip_fixed {s : Str} (h1 : ∀ c, s.head? = some c → isPySpace c = false)
    (h2 : ∀ c, s.getLast? = some c → isPySpace c = false) : pyStrip s = s := by
  unfold pyStrip
  rw [dropWhile_eq_self_of_head h1]
  rw [List.rdropWhile_eq_self_iff]
  intro hl
  have := h2 (s.getLast hl) (List.getLast?_eq_getLast _ hl)
  simp [this]

theorem pyStrip_idem (s : Str) : pyStrip (pyStrip s) = pyStrip s :=
  pyStrip_fixed (fun _ h => head?_pyStrip h) (fun _ h => getLast?_pyStrip h)

/-! ### `collapseSpaces` lemmas -/

/-- No two adjacent whitespace characters. -/
def NoWsRun (s : Str) : Prop :=
  s.Chain' (fun a b => isPySpace a = true → isPySpace b = false)

theorem mem_collapseAux {c : Char} :
    ∀ (s : Str) (b : Bool), c ∈ collapseAux b s → c = ' ' ∨ (c ∈ s ∧ isPySpace c = false) := by
  intro s
  induction s with
  | nil => intro b h; simp [collapseAux] at h
  | cons d rest ih =>
    intro b h
    by_cases hd : isPySpace d
    · cases b with
      | true =>
        rw [collapseAux, if_pos hd] at h
        rcases ih true h with h1 | ⟨h1, h2⟩
        · exact Or.inl h1
        · exact Or.inr ⟨List.mem_cons_of_mem _ h1, h2⟩
      | false =>
        rw [collapseAux, if_pos hd] at h
        rcases List.mem_cons.mp h with h1 | h1
        · exact Or.inl h1
        · rcases ih true h1 with h2 | ⟨h2, h3⟩
          · exact Or.inl h2
          · exact Or.inr ⟨List.mem_cons_of_mem _ h2, h3⟩
    · rw [collapseAux, if_neg hd] at h
      rcases List.mem_cons.mp h with h1 | h1
      · subst h1
        exact Or.inr ⟨List.mem_cons_self _ _, Bool.eq_false_iff.mpr hd⟩
      · rcases ih false h1 with h2 | ⟨h2, h3⟩
        · exact Or.inl h2
        · exact Or.inr ⟨List.mem_cons_of_mem _ h2, h3⟩

theorem head?_collapseAux_true {c : Char} :
    ∀ (s : Str), (collapseAux true s).head? = some c → isPySpace c = false := by
  intro s
  induction s with
  | nil => intro h; simp [collapseAux] at h
  | cons d rest ih =>
    intro h
    by_cases hd : isPySpace d
    · rw [collapseAux, if_pos hd] at h
      exact ih h
    · rw [collapseAux, if_neg hd] at h
      simp only [List.head?_cons, Option.some.injEq] at h
      subst h
      exact Bool.eq_false_iff.mpr hd

theorem noWsRun_collapseAux : ∀ (s : Str) (b : Bool), NoWsRun (collapseAux b s) := by
  intro s
  induction s with
  | nil => intro b; simp [collapseAux, NoWsRun]
  | cons d rest ih =>
    intro b
    by_cases hd : isPySpace d
    · cases b with
      | true =>
        rw [collapseAux, if_pos hd]
        exact ih true
      | false =>
        rw [collapseAux, if_pos hd]
        refine List.chain'_cons'.mpr ⟨?_, ih true⟩
        intro y hy _
        exact head?_collapseAux_true rest hy
    · rw [collapseAux, if_neg hd]
      refine List.chain'_cons'.mpr ⟨?_, ih false⟩
      intro y hy habs
      exact absurd habs (by simp [Bool.eq_false_iff.mpr hd])

theorem collapseAux_true_of_head {s : Str}
    (h : ∀ c, s.head? = some c → isPySpace c = false) :
    collapseAux true s = collapseAux false s := by
  cases s with
  | nil => rfl
  | cons d rest =>
    have hd := h d (by simp)
    rw [collapseAux, collapseAux, if_neg (by simp [hd]), if_neg (by simp [hd])]

theorem collapseAux_false_fixed :
    ∀ (s : Str), NoWsRun s → (∀ c ∈ s, isPySpace c = true → c = ' ') →
      collapseAux false s = s := by
  intro s
  induction s with
  | nil => intro _ _; rfl
  | cons d rest ih =>
    intro hchain hchar
    have hrest : NoWsRun rest := (List.chain'_cons'.mp hchain).2
    have hrchar : ∀ c ∈ rest, isPySpace c = true → c = ' ' :=
      fun c hc => hchar c (List.mem_cons_of_mem _ hc)
    by_cases hd : isPySpace d
    · have hd' : d = ' ' := hchar d (List.mem_cons_self _ _) hd
      rw [collapseAux, if_pos hd]
      have hhead : ∀ c, rest.head? = some c → isPySpace c = false := by
        intro c hc
        exact (List.chain'_cons'.mp hchain).1 c hc hd
      rw [collapseAux_true_of_head hhead, ih hrest hrchar, hd']
      simp
    · rw [collapseAux, if_neg hd, ih hrest hrchar]

/-! ### Normalized-output invariants -/

theorem mem_stripArticle {s : Str} {c : Char} (h : c ∈ stripArticle s) : c ∈ s := by
  unfold stripArticle at h
  cases hf : articles.find? (fun art => articleFires art s) with
  | none => rw [hf] at h; exact h
  | some art =>
    rw [hf] at h
    have h1 : c ∈ s.drop art.length := (List.dropWhile_suffix _).sublist.mem h
    exact (List.drop_sublist _ _).mem h1

theorem mem_punctToSpace {s : Str} {c : Char} (h : c ∈ punctToSpace s) :
    c = ' ' ∨ (c ∈ s ∧ (isWordChar c || isPySpace c) = true) := by
  unfold punctToSpace at h
  obtain ⟨d, hd, hdc⟩ := List.mem_map.mp h
  by_cases hw : (isWordChar d || isPySpace d) = true
  · rw [if_pos hw] at hdc
    subst hdc
    exact Or.inr ⟨hd, hw⟩
  · rw [if_neg hw] at hdc
    exact Or.inl hdc.symm

theorem nn_mem {x : Str} {c : Char} (h : c ∈ normalizeName x) :
    c = ' ' ∨ (c ∈ x.map lowerChar ∧ isWordChar c = true) := by
  unfold normalizeName at h
  by_cases hx : x = []
  · rw [if_pos hx] at h; simp at h
  · rw [if_neg hx] at h
    have h1 := mem_pyStrip h
    rcases mem_collapseAux _ _ h1 with h2 | ⟨h2, hns⟩
    · exact Or.inl h2
    · rcases mem_punctToSpace h2 with h3 | ⟨h3, hws⟩
      · exact Or.inl h3
      · have hw : isWordChar c = true := by
          rcases Bool.or_eq_true_iff.mp hws with h4 | h4
          · exact h4
          · rw [h4] at hns; exact absurd hns (by simp)
        exact Or.inr ⟨mem_pyStrip (mem_stripArticle h3), hw⟩

theorem nn_lower_fixed {x : Str} {c : Char} (h : c ∈ normalizeName x) : lowerChar c = c := by
  rcases nn_mem h with h1 | ⟨h1, _⟩
  · subst h1; decide
  · obtain ⟨d, _, hd⟩ := List.mem_map.mp h1
    rw [← hd]
    exact lowerChar_idem d

theorem nn_space_is_space {x : Str} {c : Char} (h : c ∈ normalizeName x)
    (hs : isPySpace c = true) : c = ' ' := by
  rcases nn_mem h with h1 | ⟨_, h2⟩
  · exact h1
  · exact absurd (pyspace_not_word hs) (by simp [h2])

theorem nn_strip_fixed (x : Str) : pyStrip (normalizeName x) = normalizeName x := by
  unfold normalizeName
  by_cases hx : x = []
  · rw [if_pos hx]; rfl
  · rw [if_neg hx]
    exact pyStrip_idem _

theorem nn_noWsRun (x : Str) : NoWsRun (normalizeName x) := by
  unfold normalizeName
  by_cases hx : x = []
  · rw [if_pos hx]; simp [NoWsRun]
  · rw [if_neg hx]
    unfold pyStrip
    have h1 : NoWsRun (collapseSpaces (punctToSpace (stripArticle (pyStrip ((x.map lowerChar)))))) :=
      noWsRun_collapseAux _ _
    have h2 : NoWsRun (List.dropWhile isPySpace
        (collapseSpaces (punctToSpace (stripArticle (pyStrip (x.map lowerChar)))))) :=
      h1.suffix (List.dropWhile_suffix _)
    exact h2.prefix (List.rdropWhile_prefix _ _)

theorem map_self_of_fixed {α : Type} {l : List α} {f : α → α} (h : ∀ x ∈ l, f x = x) :
    l.map f = l := by
  rw [List.map_congr_left h]
  simp

theorem nn_map_lower (x : Str) : (normalizeName x).map lowerChar = normalizeName x :=
  map_self_of_fixed (fun _ hc => nn_lower_fixed hc)

theorem nn_punct_fixed (x : Str) : punctToSpace (normalizeName x) = normalizeName x := by
  unfold punctToSpace
  apply map_self_of_fixed
  intro c hc
  rcases nn_mem hc with h1 | ⟨_, h2⟩
  · subst h1; decide
  · simp [h2]

theorem nn_collapse_fixed (x : Str) : collapseSpaces (normalizeName x) = normalizeName x :=
  collapseAux_false_fixed _ (nn_noWsRun x) (fun _ hc hs => nn_space_is_space hc hs)

/-- C2, counterexample.  The article regex is applied once per normalize
pass, so a second pass can strip an article the first pass uncovered:
`"a.b"` normalizes to `"a b"` (the `.` prevents the article from matching),
and normalizing again strips the now-leading `"a "`. -/
theorem C2_normalize_not_idempotent :
    normalizeName (normalizeName (("a.b").toList)) ≠ normalizeName (("a.b").toList) := by
  decide

/-- C2, amended: the normalizer is idempotent on every input whose
normalization does not itself start with an article token followed by
whitespace (equivalently, on which a second article strip fires vacuously).
On such inputs `normalize (normalize x) = normalize x`. -/
theorem C2_normalize_idempotent_of_noArticle (x : Str)
    (h : stripArticle (normalizeName x) = normalizeName x) :
    normalizeName (normalizeName x) = normalizeName x := by
  by_cases hy : normalizeName x = []
  · rw [hy]
    rfl
  · nth_rewrite 1 [normalizeName]
    rw [if_neg hy, nn_map_lower, nn_strip_fixed, h, nn_punct_fixed, nn_collapse_fixed,
      nn_strip_fixed]

/-- C2, witness: the amended idempotence applied at `"Elden Ring"`. -/
theorem C2_normalize_idempotent_witness :
    normalizeName (normalizeName (("Elden Ring").toList)) = normalizeName (("Elden Ring").toList) :=
  C2_normalize_idempotent_of_noArticle (("Elden Ring").toList) (by decide)

/-! ### Bounds on the similarity ratio -/

theorem commonPrefixLen_le_left : ∀ (xs ys : Str), commonPrefixLen xs ys ≤ xs.length := by
  intro xs
  induction xs with
  | nil => intro ys; cases ys <;> simp [commonPrefixLen]
  | cons x xt ih =>
    intro ys
    cases ys with
    | nil => simp [commonPrefixLen]
    | cons y yt =>
      rw [commonPrefixLen]
      by_cases h : x = y
      · rw [if_pos h]
        have := ih yt
        simp only [List.length_cons]
        omega
      · rw [if_neg h]
        simp

theorem commonPrefixLen_le_right : ∀ (xs ys : Str), commonPrefixLen xs ys ≤ ys.length := by
  intro xs
  induction xs with
  | nil => intro ys; cases ys <;> simp [commonPrefixLen]
  | cons x xt ih =>
    intro ys
    cases ys with
    | nil => simp [commonPrefixLen]
    | cons y yt =>
      rw [commonPrefixLen]
      by_cases h : x = y
      · rw [if_pos h]
        have := ih yt
        simp only [List.length_cons]
        omega
      · rw [if_neg h]
        simp

theorem foldl_best_pred {P : Nat × Nat × Nat → Prop} :
    ∀ (l : List (Nat × Nat × Nat)) (init : Nat × Nat × Nat), P init → (∀ c ∈ l, P c) →
      P (l.foldl (fun best c => if best.2.2 < c.2.2 then c else best) init) := by
  intro l
  induction l with
  | nil => intro init hi _; exact hi
  | cons c t ih =>
    intro init hi hl
    rw [List.foldl_cons]
    by_cases h : init.2.2 < c.2.2
    · rw [if_pos h]
      exact ih _ (hl c (List.mem_cons_self _ _)) (fun d hd => hl d (List.mem_cons_of_mem _ hd))
    · rw [if_neg h]
      exact ih _ hi (fun d hd => hl d (List.mem_cons_of_mem _ hd))

theorem mem_flmCandidates {a b : Str} {c : Nat × Nat × Nat} (h : c ∈ flmCandidates a b) :
    c.1 < a.length ∧ c.2.1 < b.length ∧
      c.2.2 = commonPrefixLen (a.drop c.1) (b.drop c.2.1) := by
  unfold flmCandidates at h
  obtain ⟨i, hi, hmem⟩ := List.mem_flatMap.mp h
  obtain ⟨j, hj, hc⟩ := List.mem_map.mp hmem
  subst hc
  exact ⟨List.mem_range.mp hi, List.mem_range.mp hj, rfl⟩

theorem findLongestMatch_bounds (a b : Str) :
    (findLongestMatch a b).1 + (findLongestMatch a b).2.2 ≤ a.length ∧
      (findLongestMatch a b).2.1 + (findLongestMatch a b).2.2 ≤ b.length := by
  unfold findLongestMatch
  apply foldl_best_pred (P := fun t => t.1 + t.2.2 ≤ a.length ∧ t.2.1 + t.2.2 ≤ b.length)
  · simp
  · intro c hc
    obtain ⟨hi, hj, hk⟩ := mem_flmCandidates hc
    have h1 := commonPrefixLen_le_left (a.drop c.1) (b.drop c.2.1)
    have h2 := commonPrefixLen_le_right (a.drop c.1) (b.drop c.2.1)
    rw [List.length_drop] at h1 h2
    omega

theorem matchesTotalFuel_le :
    ∀ (fuel : Nat) (a b : Str), matchesTotalFuel fuel a b ≤ min a.length b.length := by
  intro fuel
  induction fuel with
  | zero => intro a b; simp [matchesTotalFuel]
  | succ n ih =>
    intro a b
    rw [matchesTotalFuel]
    by_cases h : (findLongestMatch a b).2.2 = 0
    · simp only [h, if_pos rfl]
      simp
    · simp only [if_neg h]
      have hb := findLongestMatch_bounds a b
      have h1 := ih (a.take (findLongestMatch a b).1) (b.take (findLongestMatch a b).2.1)
      have h2 := ih (a.drop ((findLongestMatch a b).1 + (findLongestMatch a b).2.2))
        (b.drop ((findLongestMatch a b).2.1 + (findLongestMatch a b).2.2))
      simp only [List.length_take, List.length_drop] at h1 h2
      omega

theorem matchesTotal_le (a b : Str) : 2 * matchesTotal a b ≤ a.length + b.length := by
  have := matchesTotalFuel_le (a.length + 1) a b
  unfold matchesTotal
  omega

theorem ratio_nonneg (a b : Str) : 0 ≤ ratio a b := by
  unfold ratio
  by_cases h : a.length + b.length = 0
  · rw [if_pos h]; norm_num
  · rw [if_neg h]
    apply div_nonneg
    · positivity
    · positivity

theorem ratio_le_one (a b : Str) : ratio a b ≤ 1 := by
  unfold ratio
  by_cases h : a.length + b.length = 0
  · rw [if_pos h]
  · rw [if_neg h]
    rw [div_le_one (by exact_mod_cast Nat.pos_of_ne_zero h)]
    have := matchesTotal_le a b
    exact_mod_cast this

/-! ### Scorer lemmas -/

theorem fuzzyMatchScore_some {q t : Str} {th r : ℚ} (h : fuzzyMatchScore q t th = some r) :
    th ≤ r ∧ r = ratio q t ∧ q ≠ [] ∧ t ≠ [] := by
  unfold fuzzyMatchScore at h
  by_cases he : q = [] ∨ t = []
  · rw [if_pos he] at h; exact absurd h (by simp)
  · rw [if_neg he] at h
    by_cases hth : th ≤ ratio q t
    · rw [if_pos hth] at h
      simp only [Option.some.injEq] at h
      subst h
      exact ⟨hth, rfl, fun hq => he (Or.inl hq), fun ht => he (Or.inr ht)⟩
    · rw [if_neg hth] at h
      exact absurd h (by simp)

theorem bestLoop_some {qw : Str} :
    ∀ (tws : List Str) (best : Option ℚ) (b : ℚ), bestLoop qw tws best = some b →
      best = some b ∨ ∃ tw ∈ tws, fuzzyMatchScore qw tw (1/2) = some b := by
  intro tws
  induction tws with
  | nil => intro best b h; exact Or.inl h
  | cons tw rest ih =>
    intro best b h
    rw [bestLoop] at h
    cases hs : fuzzyMatchScore qw tw (1/2) with
    | none =>
      rw [hs] at h
      rcases ih best b h with h1 | ⟨tw2, h2, h3⟩
      · exact Or.inl h1
      · exact Or.inr ⟨tw2, List.mem_cons_of_mem _ h2, h3⟩
    | some s =>
      rw [hs] at h
      simp only [] at h
      by_cases hc : s ≠ 0 ∧ beats s best
      · rw [if_pos hc] at h
        rcases ih _ b h with h1 | ⟨tw2, h2, h3⟩
        · simp only [Option.some.injEq] at h1
          subst h1
          exact Or.inr ⟨tw, List.mem_cons_self _ _, hs⟩
        · exact Or.inr ⟨tw2, List.mem_cons_of_mem _ h2, h3⟩
      · rw [if_neg hc] at h
        rcases ih best b h with h1 | ⟨tw2, h2, h3⟩
        · exact Or.inl h1
        · exact Or.inr ⟨tw2, List.mem_cons_of_mem _ h2, h3⟩

/-- A best-per-word score is the ratio against some target word, and lies in
`[1/2, 1]`. -/
theorem bestLoop_none_some {qw : Str} {tws : List Str} {b : ℚ}
    (h : bestLoop qw tws none = some b) :
    ∃ tw ∈ tws, fuzzyMatchScore qw tw (1/2) = some b ∧ 1/2 ≤ b ∧ b ≤ 1 := by
  rcases bestLoop_some tws none b h with h1 | ⟨tw, h2, h3⟩
  · exact absurd h1 (by simp)
  · obtain ⟨hth, hr, _, _⟩ := fuzzyMatchScore_some h3
    exact ⟨tw, h2, h3, hth, hr ▸ ratio_le_one qw tw⟩

theorem sum_ge_half : ∀ {l : List ℚ}, (∀ s ∈ l, 1/2 ≤ s) → (l.length : ℚ) * (1/2) ≤ l.sum := by
  intro l
  induction l with
  | nil => intro _; simp
  | cons x t ih =>
    intro h
    have hx := h x (List.mem_cons_self _ _)
    have ht := ih (fun s hs => h s (List.mem_cons_of_mem _ hs))
    simp only [List.sum_cons, List.length_cons]
    push_cast
    linarith

theorem sum_le_len : ∀ {l : List ℚ}, (∀ s ∈ l, s ≤ 1) → l.sum ≤ (l.length : ℚ) := by
  intro l
  induction l with
  | nil => intro _; simp
  | cons x t ih =>
    intro h
    have hx := h x (List.mem_cons_self _ _)
    have ht := ih (fun s hs => h s (List.mem_cons_of_mem _ hs))
    simp only [List.sum_cons, List.length_cons]
    push_cast
    linarith

theorem avg_bounds {l : List ℚ} (hne : l ≠ []) (h : ∀ s ∈ l, 1/2 ≤ s ∧ s ≤ 1) :
    1/2 ≤ l.sum / l.length ∧ l.sum / l.length ≤ 1 := by
  have hlen : 0 < (l.length : ℚ) := by
    have : 0 < l.length := List.length_pos.mpr hne
    exact_mod_cast this
  have hlow := sum_ge_half (fun s hs => (h s hs).1)
  have hhigh := sum_le_len (fun s hs => (h s hs).2)
  constructor
  · rw [le_div_iff₀ hlen]
    linarith
  · rw [div_le_one hlen]
    linarith

theorem wordsLoop_some {tws : List Str} :
    ∀ (qws : List Str) (scores : List ℚ) (m : ℚ),
      (∀ s ∈ scores, 1/2 ≤ s ∧ s ≤ 1) → wordsLoop tws qws scores = some m →
        (∀ q ∈ qws, ∃ tw ∈ tws, ∃ b, fuzzyMatchScore q tw (1/2) = some b) ∧
          1/2 ≤ m ∧ m ≤ 1 := by
  intro qws
  induction qws with
  | nil =>
    intro scores m hsc h
    rw [wordsLoop] at h
    by_cases he : scores = []
    · rw [if_pos he] at h; exact absurd h (by simp)
    · rw [if_neg he] at h
      simp only [Option.some.injEq] at h
      subst h
      exact ⟨by simp, avg_bounds he hsc⟩
  | cons q rest ih =>
    intro scores m hsc h
    rw [wordsLoop] at h
    cases hb : bestLoop q tws none with
    | none => rw [hb] at h; exact absurd h (by simp)
    | some b =>
      rw [hb] at h
      obtain ⟨tw, htw, hfs, hlow, hhigh⟩ := bestLoop_none_some hb
      have hsc2 : ∀ s ∈ scores ++ [b], 1/2 ≤ s ∧ s ≤ 1 := by
        intro s hs
        rcases List.mem_append.mp hs with h1 | h1
        · exact hsc s h1
        · simp only [List.mem_singleton] at h1
          subst h1
          exact ⟨hlow, hhigh⟩
      obtain ⟨hall, hm⟩ := ih (scores ++ [b]) m hsc2 h
      refine ⟨?_, hm⟩
      intro q2 hq2
      rcases List.mem_cons.mp hq2 with h1 | h1
      · subst h1
        exact ⟨tw, htw, b, hfs⟩
      · exact hall q2 h1

/-- C1, counterexample.  For query word list `["abcd"]` and candidate
`"abxy"` the single best-per-word score is `ratio "abcd" "abxy" = 1/2`, so
the mean is `1/2 ∈ [0.5, 0.6)` - yet Strategy B yields it (the `threshold`
parameter of `_fuzzy_match_words` is never compared against the mean), and
it becomes the candidate's qualifying Stage 3 score. -/
theorem C1_wordAvg_no_mean_threshold :
    fuzzyMatchWords [("abcd").toList] (("abxy").toList) (3/5) = some (1/2) ∧
      bestScore3 (("abcd").toList) [("abcd").toList] (("abxy").toList) = some (1/2) ∧
      ¬ ((3 : ℚ)/5 ≤ 1/2) := by
  refine ⟨by with_unfolding_all decide, by with_unfolding_all decide, by norm_num⟩

/-- C1, amended: Strategy B yields a score exactly when every normalized
query word attains a pairwise similarity of at least `0.5` against some
candidate word; the resulting mean of best-per-word scores always lies in
`[0.5, 1]` and is accepted unconditionally - there is no `0.6` acceptance
test on the mean, so means in `[0.5, 0.6)` do qualify. -/
theorem C1_wordAvg_amended (qws : List Str) (tgt : Str) (th m : ℚ)
    (h : fuzzyMatchWords qws tgt th = some m) :
    (∀ q ∈ qws, ∃ tw ∈ pySplit tgt, ∃ b, fuzzyMatchScore q tw (1/2) = some b ∧ 1/2 ≤ b) ∧
      1/2 ≤ m ∧ m ≤ 1 := by
  unfold fuzzyMatchWords at h
  by_cases he : qws = [] ∨ tgt = []
  · rw [if_pos he] at h; exact absurd h (by simp)
  · rw [if_neg he] at h
    obtain ⟨hall, hm⟩ := wordsLoop_some qws [] m (by simp) h
    refine ⟨?_, hm⟩
    intro q hq
    obtain ⟨tw, htw, b, hb⟩ := hall q hq
    exact ⟨tw, htw, b, hb, (fuzzyMatchScore_some hb).1⟩

/-- C1, witness for the amended theorem at query words `["abcd"]`, target
`"abcd"` (mean `1`). -/
theorem C1_wordAvg_amended_witness :
    (∀ q ∈ [("abcd").toList], ∃ tw ∈ pySplit (("abcd").toList),
        ∃ b, fuzzyMatchScore q tw (1/2) = some b ∧ 1/2 ≤ b) ∧
      (1 : ℚ)/2 ≤ 1 ∧ (1 : ℚ) ≤ 1 :=
  C1_wordAvg_amended [("abcd").toList] (("abcd").toList) (3/5) 1
    (by with_unfolding_all decide)

/-! ### Bounds on Stage 3 scores -/

theorem listMax_mem : ∀ {l : List ℚ} {v : ℚ}, listMax l = some v → v ∈ l := by
  intro l
  induction l with
  | nil => intro v h; simp [listMax] at h
  | cons x t ih =>
    intro v h
    rw [listMax] at h
    cases hm : listMax t with
    | none =>
      rw [hm] at h
      simp only [Option.some.injEq] at h
      subst h
      exact List.mem_cons_self _ _
    | some m =>
      rw [hm] at h
      simp only [Option.some.injEq] at h
      subst h
      rcases max_choice x m with h1 | h1 <;> rw [h1]
      · exact List.mem_cons_self _ _
      · exact List.mem_cons_of_mem _ (ih hm)

theorem listMax_eq_none : ∀ {l : List ℚ}, listMax l = none → l = [] := by
  intro l h
  cases l with
  | nil => rfl
  | cons x t =>
    rw [listMax] at h
    cases hm : listMax t with
    | none => rw [hm] at h; simp at h
    | some m => rw [hm] at h; simp at h

theorem listMax_ge : ∀ {l : List ℚ} {v : ℚ}, listMax l = some v → ∀ x ∈ l, x ≤ v := by
  intro l
  induction l with
  | nil => intro v _ x hx; simp at hx
  | cons y t ih =>
    intro v h x hx
    rw [listMax] at h
    cases hm : listMax t with
    | none =>
      rw [hm] at h
      simp only [Option.some.injEq] at h
      subst h
      rcases List.mem_cons.mp hx with h1 | h1
      · exact le_of_eq h1
      · rw [listMax_eq_none hm] at h1
        simp at h1
    | some m =>
      rw [hm] at h
      simp only [Option.some.injEq] at h
      subst h
      rcases List.mem_cons.mp hx with h1 | h1
      · rw [h1]; exact le_max_left _ _
      · exact le_trans (ih hm x h1) (le_max_right _ _)

theorem fuzzyMatchWords_bounds {qws : List Str} {tgt : Str} {th m : ℚ}
    (h : fuzzyMatchWords qws tgt th = some m) : 1/2 ≤ m ∧ m ≤ 1 := by
  unfold fuzzyMatchWords at h
  by_cases he : qws = [] ∨ tgt = []
  · rw [if_pos he] at h; exact absurd h (by simp)
  · rw [if_neg he] at h
    exact (wordsLoop_some qws [] m (by simp) h).2

theorem bestScore3_bounds {nq name : Str} {qws : List Str} {v : ℚ}
    (h : bestScore3 nq qws name = some v) : 1/2 ≤ v ∧ v ≤ 1 := by
  unfold bestScore3 strategyScores at h
  have hv := listMax_mem h
  rcases List.mem_filterMap.mp hv with ⟨o, ho, hov⟩
  have ho' : o = some v := by
    cases o with
    | none => simp at hov
    | some w => simpa using hov
  subst ho'
  simp only [List.mem_cons, List.not_mem_nil, or_false] at ho
  rcases ho with h1 | h1 | h1
  · obtain ⟨hth, hr, _, _⟩ := fuzzyMatchScore_some h1.symm
    subst hr
    refine ⟨by linarith, ratio_le_one _ _⟩
  · exact fuzzyMatchWords_bounds h1.symm
  · by_cases hq : qws.length = 1
    · rw [if_pos hq] at h1
      have hv2 := listMax_mem h1.symm
      rcases List.mem_filterMap.mp hv2 with ⟨tw, _, htw⟩
      obtain ⟨hth, hr, _, _⟩ := fuzzyMatchScore_some htw
      subst hr
      refine ⟨by linarith, ratio_le_one _ _⟩
    · rw [if_neg hq] at h1
      exact absurd h1.symm (by simp)

theorem roundHalfEven_bounds {q : ℚ} (h1 : 50 ≤ q) (h2 : q ≤ 100) :
    50 ≤ roundHalfEven q ∧ roundHalfEven q ≤ 100 := by
  have hfl : (50 : ℤ) ≤ ⌊q⌋ := by
    have : (⌊(50 : ℚ)⌋ : ℤ) ≤ ⌊q⌋ := Int.floor_le_floor h1
    simpa using this
  have hfu : (⌊q⌋ : ℚ) ≤ q := Int.floor_le q
  have hfrac : q - ⌊q⌋ < 1 := by
    have := Int.lt_floor_add_one q
    linarith
  unfold roundHalfEven
  by_cases hc1 : q - ⌊q⌋ < 1/2
  · rw [if_pos hc1]
    refine ⟨hfl, ?_⟩
    have : (⌊q⌋ : ℚ) ≤ 100 := by linarith
    exact_mod_cast this
  · rw [if_neg hc1]
    have hhalf : (1 : ℚ)/2 ≤ q - ⌊q⌋ := by linarith
    have hup : (⌊q⌋ : ℚ) ≤ 99.5 := by linarith
    have hup' : ⌊q⌋ ≤ 99 := by
      by_contra hcon
      push_neg at hcon
      have : (100 : ℚ) ≤ (⌊q⌋ : ℚ) := by exact_mod_cast hcon
      linarith
    by_cases hc2 : (1 : ℚ)/2 < q - ⌊q⌋
    · rw [if_pos hc2]
      omega
    · rw [if_neg hc2]
      by_cases hc3 : ⌊q⌋ % 2 = 0
      · rw [if_pos hc3]; omega
      · rw [if_neg hc3]; omega

theorem roundQ2_bounds {q : ℚ} (h1 : 1/2 ≤ q) (h2 : q ≤ 1) :
    1/2 ≤ roundQ2 q ∧ roundQ2 q ≤ 1 := by
  have := roundHalfEven_bounds (q := 100 * q) (by linarith) (by linarith)
  unfold roundQ2
  constructor
  · rw [le_div_iff₀ (by norm_num : (0:ℚ) < 100)]
    have : (50 : ℚ) ≤ (roundHalfEven (100 * q) : ℚ) := by exact_mod_cast this.1
    linarith
  · rw [div_le_one (by norm_num : (0:ℚ) < 100)]
    exact_mod_cast this.2

/-! ### Dedup/merge machinery lemmas -/

theorem dedupAppend_fst_prefix (tag : Str) (sc : ℚ) :
    ∀ (rows : List Row) (st : List Suggestion × List (Str × Ident)),
      st.1 <+: (dedupAppend tag sc rows st).1 := by
  intro rows
  induction rows with
  | nil => intro st; exact List.prefix_refl _
  | cons r rest ih =>
    intro st
    obtain ⟨sugs, seen⟩ := st
    rw [dedupAppend]
    by_cases h : keyOf r ∈ seen
    · rw [if_pos h]
      exact ih _
    · rw [if_neg h]
      exact List.IsPrefix.trans ⟨[mkSug r tag sc], rfl⟩
        (ih (sugs ++ [mkSug r tag sc], seen ++ [keyOf r]))

theorem dedupAppend_sync (tag : Str) (sc : ℚ) :
    ∀ (rows : List Row) (st : List Suggestion × List (Str × Ident)),
      st.2 = st.1.map sugKey →
        (dedupAppend tag sc rows st).2 = (dedupAppend tag sc rows st).1.map sugKey := by
  intro rows
  induction rows with
  | nil => intro st h; exact h
  | cons r rest ih =>
    intro st h
    obtain ⟨sugs, seen⟩ := st
    rw [dedupAppend]
    by_cases hk : keyOf r ∈ seen
    · rw [if_pos hk]
      exact ih _ h
    · rw [if_neg hk]
      apply ih
      simp only [List.map_append, List.map_cons, List.map_nil]
      have h' : seen = List.map sugKey sugs := h
      rw [h']
      rfl

theorem dedupAppend_nodup (tag : Str) (sc : ℚ) :
    ∀ (rows : List Row) (st : List Suggestion × List (Str × Ident)),
      st.2.Nodup → (dedupAppend tag sc rows st).2.Nodup := by
  intro rows
  induction rows with
  | nil => intro st h; exact h
  | cons r rest ih =>
    intro st h
    obtain ⟨sugs, seen⟩ := st
    rw [dedupAppend]
    by_cases hk : keyOf r ∈ seen
    · rw [if_pos hk]
      exact ih _ h
    · rw [if_neg hk]
      apply ih
      simp only [List.nodup_append, List.nodup_cons, List.nodup_nil]
      exact ⟨h, by simp, by simpa using hk⟩

theorem dedupAppend_mem (tag : Str) (sc : ℚ) :
    ∀ (rows : List Row) (st : List Suggestion × List (Str × Ident)) (s : Suggestion),
      s ∈ (dedupAppend tag sc rows st).1 →
        s ∈ st.1 ∨ ∃ r ∈ rows, s = mkSug r tag sc := by
  intro rows
  induction rows with
  | nil => intro st s h; exact Or.inl h
  | cons r rest ih =>
    intro st s h
    obtain ⟨sugs, seen⟩ := st
    rw [dedupAppend] at h
    by_cases hk : keyOf r ∈ seen
    · rw [if_pos hk] at h
      rcases ih _ s h with h1 | ⟨r2, h2, h3⟩
      · exact Or.inl h1
      · exact Or.inr ⟨r2, List.mem_cons_of_mem _ h2, h3⟩
    · rw [if_neg hk] at h
      rcases ih _ s h with h1 | ⟨r2, h2, h3⟩
      · rcases List.mem_append.mp h1 with h2 | h2
        · exact Or.inl h2
        · simp only [List.mem_singleton] at h2
          exact Or.inr ⟨r, List.mem_cons_self _ _, h2⟩
      · exact Or.inr ⟨r2, List.mem_cons_of_mem _ h2, h3⟩

theorem dedupAppend_seen_mono (tag : Str) (sc : ℚ) :
    ∀ (rows : List Row) (st : List Suggestion × List (Str × Ident)) (k : Str × Ident),
      k ∈ st.2 → k ∈ (dedupAppend tag sc rows st).2 := by
  intro rows
  induction rows with
  | nil => intro st k h; exact h
  | cons r rest ih =>
    intro st k h
    obtain ⟨sugs, seen⟩ := st
    rw [dedupAppend]
    by_cases hk : keyOf r ∈ seen
    · rw [if_pos hk]
      exact ih _ _ h
    · rw [if_neg hk]
      exact ih _ _ (List.mem_append.mpr (Or.inl h))

theorem dedupAppend_covers (tag : Str) (sc : ℚ) :
    ∀ (rows : List Row) (st : List Suggestion × List (Str × Ident)) (r : Row),
      r ∈ rows → keyOf r ∈ (dedupAppend tag sc rows st).2 := by
  intro rows
  induction rows with
  | nil => intro st r h; simp at h
  | cons r0 rest ih =>
    intro st r h
    obtain ⟨sugs, seen⟩ := st
    rw [dedupAppend]
    rcases List.mem_cons.mp h with h1 | h1
    · subst h1
      by_cases hk : keyOf r ∈ seen
      · rw [if_pos hk]
        exact dedupAppend_seen_mono _ _ _ _ _ hk
      · rw [if_neg hk]
        exact dedupAppend_seen_mono _ _ _ _ _ (by simp)
    · by_cases hk : keyOf r0 ∈ seen
      · rw [if_pos hk]
        exact ih _ _ h1
      · rw [if_neg hk]
        exact ih _ _ h1

theorem takeUntilLimit_eq (limit : Nat) :
    ∀ (l acc : List Suggestion),
      takeUntilLimit limit acc l = acc ++ l.take (limit - acc.length) := by
  intro l
  induction l with
  | nil => intro acc; simp [takeUntilLimit]
  | cons c cs ih =>
    intro acc
    rw [takeUntilLimit]
    by_cases h : limit ≤ acc.length
    · rw [if_pos h]
      have : limit - acc.length = 0 := by omega
      rw [this]
      simp
    · rw [if_neg h]
      rw [ih (acc ++ [c])]
      have h1 : limit - acc.length = (limit - (acc ++ [c]).length) + 1 := by
        simp only [List.length_append, List.length_cons, List.length_nil]
        omega
      rw [h1, List.take_succ_cons, List.append_assoc]
      rfl

/-! ### Stable descending sort lemmas -/

theorem insertDesc_perm (x : Suggestion) :
    ∀ (l : List Suggestion), List.Perm (insertDesc x l) (x :: l) := by
  intro l
  induction l with
  | nil => rfl
  | cons y ys ih =>
    rw [insertDesc]
    by_cases h : y.score ≤ x.score
    · rw [if_pos h]
    · rw [if_neg h]
      exact (List.Perm.cons y ih).trans (List.Perm.swap x y ys)

theorem sortDesc_perm : ∀ (l : List Suggestion), List.Perm (sortDesc l) l := by
  intro l
  induction l with
  | nil => rfl
  | cons c t ih =>
    have h0 : sortDesc (c :: t) = insertDesc c (sortDesc t) := rfl
    rw [h0]
    exact (insertDesc_perm c (sortDesc t)).trans (List.Perm.cons c ih)

theorem insertDesc_sorted {x : Suggestion} :
    ∀ {l : List Suggestion}, l.Sorted (fun a b => b.score ≤ a.score) →
      (insertDesc x l).Sorted (fun a b => b.score ≤ a.score) := by
  intro l
  induction l with
  | nil => intro _; simp [insertDesc]
  | cons y ys ih =>
    intro h
    have hy := List.sorted_cons.mp h
    rw [insertDesc]
    by_cases hc : y.score ≤ x.score
    · rw [if_pos hc]
      refine List.sorted_cons.mpr ⟨?_, h⟩
      intro z hz
      rcases List.mem_cons.mp hz with h1 | h1
      · rw [h1]; exact hc
      · exact le_trans (hy.1 z h1) hc
    · rw [if_neg hc]
      refine List.sorted_cons.mpr ⟨?_, ih hy.2⟩
      intro z hz
      rcases List.mem_cons.mp ((insertDesc_perm x ys).mem_iff.mp hz) with h1 | h1
      · rw [h1]; exact le_of_not_le hc
      · exact hy.1 z h1

theorem sortDesc_sorted : ∀ (l : List Suggestion),
    (sortDesc l).Sorted (fun a b => b.score ≤ a.score) := by
  intro l
  induction l with
  | nil => simp [sortDesc]
  | cons c t ih =>
    have h0 : sortDesc (c :: t) = insertDesc c (sortDesc t) := rfl
    rw [h0]
    exact insertDesc_sorted ih

theorem insertDesc_filter (x : Suggestion) (v : ℚ) :
    ∀ (l : List Suggestion),
      (insertDesc x l).filter (fun s => decide (s.score = v)) =
        if x.score = v then x :: l.filter (fun s => decide (s.score = v))
        else l.filter (fun s => decide (s.score = v)) := by
  intro l
  induction l with
  | nil =>
    by_cases h : x.score = v
    · rw [if_pos h]; simp [insertDesc, List.filter, h]
    · rw [if_neg h]; simp [insertDesc, List.filter, h]
  | cons y ys ih =>
    rw [insertDesc]
    by_cases hc : y.score ≤ x.score
    · rw [if_pos hc]
      by_cases h : x.score = v
      · rw [if_pos h, List.filter_cons_of_pos (by simp [h])]
      · rw [if_neg h, List.filter_cons_of_neg (by simp [h])]
    · rw [if_neg hc]
      have hxy : x.score < y.score := lt_of_not_le hc
      by_cases h : x.score = v
      · have hyv : ¬ y.score = v := by
          intro hcon
          rw [hcon, ← h] at hxy
          exact lt_irrefl _ hxy
        rw [if_pos h, List.filter_cons_of_neg (by simp [hyv]),
          List.filter_cons_of_neg (by simp [hyv]), ih, if_pos h]
      · rw [if_neg h]
        by_cases hyv : y.score = v
        · rw [List.filter_cons_of_pos (by simp [hyv]),
            List.filter_cons_of_pos (by simp [hyv]), ih, if_neg h]
        · rw [List.filter_cons_of_neg (by simp [hyv]),
            List.filter_cons_of_neg (by simp [hyv]), ih, if_neg h]

theorem sortDesc_filter (v : ℚ) :
    ∀ (l : List Suggestion),
      (sortDesc l).filter (fun s => decide (s.score = v)) =
        l.filter (fun s => decide (s.score = v)) := by
  intro l
  induction l with
  | nil => rfl
  | cons c t ih =>
    have h0 : sortDesc (c :: t) = insertDesc c (sortDesc t) := rfl
    rw [h0, insertDesc_filter]
    by_cases h : c.score = v
    · rw [if_pos h, ih, List.filter_cons_of_pos (by simp [h])]
    · rw [if_neg h, ih, List.filter_cons_of_neg (by simp [h])]

/-! ### Stage 3 candidate characterization -/

theorem mem_stage3Candidates {allRows : List Row} {seen : List (Str × Ident)}
    {nq : Str} {qws : List Str} {s : Suggestion} :
    s ∈ stage3Candidates allRows seen nq qws ↔
      ∃ r ∈ allRows, (r.item_type = ("game").toList ∨ r.item_type = ("platform").toList) ∧
        keyOf r ∉ seen ∧ ∃ v, bestScore3 nq qws r.name = some v ∧
          s = mkSug r tagChar (roundQ2 v) := by
  unfold stage3Candidates
  constructor
  · intro h
    rcases List.mem_filterMap.mp h with ⟨r, hr, hsome⟩
    rcases List.mem_filter.mp hr with ⟨hr2, hseen⟩
    rcases List.mem_filter.mp hr2 with ⟨hr3, htype⟩
    rcases Option.map_eq_some'.mp hsome with ⟨v, hv, hs⟩
    exact ⟨r, hr3, by simpa using htype, by simpa using hseen, v, hv, hs.symm⟩
  · rintro ⟨r, hr, htype, hseen, v, hv, hs⟩
    apply List.mem_filterMap.mpr
    refine ⟨r, ?_, ?_⟩
    · exact List.mem_filter.mpr
        ⟨List.mem_filter.mpr ⟨hr, by simpa using htype⟩, by simpa using hseen⟩
    · rw [hv]
      simp [hs]

theorem filterMap_keys_sublist {f : Row → Option Suggestion}
    (hf : ∀ r s, f r = some s → sugKey s = keyOf r) :
    ∀ (l : List Row), ((l.filterMap f).map sugKey).Sublist (l.map keyOf) := by
  intro l
  induction l with
  | nil => simp
  | cons r t ih =>
    cases hb : f r with
    | none =>
      have h0 : List.filterMap f (r :: t) = List.filterMap f t := by
        rw [List.filterMap_cons, hb]
      rw [h0, List.map_cons]
      exact ih.cons _
    | some s =>
      have h0 : List.filterMap f (r :: t) = s :: List.filterMap f t := by
        rw [List.filterMap_cons, hb]
      rw [h0, List.map_cons, List.map_cons, hf r s hb]
      exact List.Sublist.cons₂ _ ih

theorem stage3Candidates_keys_sublist (allRows : List Row) (seen : List (Str × Ident))
    (nq : Str) (qws : List Str) :
    ((stage3Candidates allRows seen nq qws).map sugKey).Sublist (allRows.map keyOf) := by
  unfold stage3Candidates
  refine List.Sublist.trans (filterMap_keys_sublist ?_ _) ?_
  · intro r s h
    rcases Option.map_eq_some'.mp h with ⟨v, _, hs⟩
    rw [← hs]
    rfl
  · exact List.Sublist.map _ ((List.filter_sublist _).trans (List.filter_sublist _))

theorem stage3Candidates_unseen {allRows : List Row} {seen : List (Str × Ident)}
    {nq : Str} {qws : List Str} {s : Suggestion}
    (h : s ∈ stage3Candidates allRows seen nq qws) : sugKey s ∉ seen := by
  rcases mem_stage3Candidates.mp h with ⟨r, _, _, hseen, v, _, hs⟩
  rw [hs]
  exact hseen

/-! ### Pipeline structure lemmas -/

theorem autocomplete_empty {q : Str} (fts : Str → List Row) (rows : List Row) (limit : Nat)
    (h : pyStrip q = []) : autocomplete fts rows q limit = [] := by
  unfold autocomplete
  simp [h]

theorem autocomplete_eq {q : Str} (fts : Str → List Row) (rows : List Row) (limit : Nat)
    (h : pyStrip q ≠ []) :
    autocomplete fts rows q limit =
      (stage3Apply rows (normalizeName (pyStrip q)) (pySplit (normalizeName (pyStrip q))) limit
        (stage2State fts (pyStrip q) (pySplit (normalizeName (pyStrip q))) limit
          (stage1State fts (pyStrip q) limit))).take limit := by
  unfold autocomplete
  simp [h]

theorem stage1_sync (fts : Str → List Row) (query : Str) (limit : Nat) :
    (stage1State fts query limit).2 = (stage1State fts query limit).1.map sugKey :=
  dedupAppend_sync _ _ _ ([], []) rfl

theorem stage1_nodup (fts : Str → List Row) (query : Str) (limit : Nat) :
    (stage1State fts query limit).2.Nodup :=
  dedupAppend_nodup _ _ _ ([], []) (by simp)

theorem stage1_mem {fts : Str → List Row} {query : Str} {limit : Nat} {s : Suggestion}
    (h : s ∈ (stage1State fts query limit).1) :
    ∃ r ∈ fts (exactTerm query), s = mkSug r tagExact 1 := by
  rcases dedupAppend_mem _ _ _ ([], []) s h with h1 | ⟨r, hr, hs⟩
  · simp at h1
  · exact ⟨r, List.mem_of_mem_take hr, hs⟩

theorem stage2_sync (fts : Str → List Row) (query : Str) (qws : List Str) (limit : Nat)
    (st : List Suggestion × List (Str × Ident)) (h : st.2 = st.1.map sugKey) :
    (stage2State fts query qws limit st).2 = (stage2State fts query qws limit st).1.map sugKey := by
  unfold stage2State
  by_cases hc : st.1.length < limit
  · rw [if_pos hc]
    exact dedupAppend_sync _ _ _ _ h
  · rw [if_neg hc]
    exact h

theorem stage2_nodup (fts : Str → List Row) (query : Str) (qws : List Str) (limit : Nat)
    (st : List Suggestion × List (Str × Ident)) (h : st.2.Nodup) :
    (stage2State fts query qws limit st).2.Nodup := by
  unfold stage2State
  by_cases hc : st.1.length < limit
  · rw [if_pos hc]
    exact dedupAppend_nodup _ _ _ _ h
  · rw [if_neg hc]
    exact h

theorem stage2_prefix (fts : Str → List Row) (query : Str) (qws : List Str) (limit : Nat)
    (st : List Suggestion × List (Str × Ident)) :
    st.1 <+: (stage2State fts query qws limit st).1 := by
  unfold stage2State
  by_cases hc : st.1.length < limit
  · rw [if_pos hc]
    exact dedupAppend_fst_prefix _ _ _ _
  · rw [if_neg hc]

theorem stage2_mem {fts : Str → List Row} {query : Str} {qws : List Str} {limit : Nat}
    {st : List Suggestion × List (Str × Ident)} {s : Suggestion}
    (h : s ∈ (stage2State fts query qws limit st).1) :
    s ∈ st.1 ∨ ∃ r ∈ fts (fuzzyTerm query qws), s = mkSug r tagWord (4/5) := by
  unfold stage2State at h
  by_cases hc : st.1.length < limit
  · rw [if_pos hc] at h
    rcases dedupAppend_mem _ _ _ _ s h with h1 | ⟨r, hr, hs⟩
    · exact Or.inl h1
    · exact Or.inr ⟨r, List.mem_of_mem_take hr, hs⟩
  · rw [if_neg hc] at h
    exact Or.inl h

theorem stage3Apply_mem {rows : List Row} {nq : Str} {qws : List Str} {limit : Nat}
    {st : List Suggestion × List (Str × Ident)} {s : Suggestion}
    (h : s ∈ stage3Apply rows nq qws limit st) :
    s ∈ st.1 ∨ s ∈ stage3Candidates rows st.2 nq qws := by
  unfold stage3Apply at h
  by_cases hc : st.1.length < limit
  · rw [if_pos hc, takeUntilLimit_eq] at h
    rcases List.mem_append.mp h with h1 | h1
    · exact Or.inl h1
    · exact Or.inr ((sortDesc_perm _).mem_iff.mp (List.mem_of_mem_take h1))
  · rw [if_neg hc] at h
    exact Or.inl h

/-- Every suggestion the pipeline returns originates either from a Stage 1
index hit (tagged `fts_exact_prefix`, score `1`), a Stage 2 index hit
(tagged `fts_word_fuzzy`, score `0.8`), or a scored Stage 3 scan row
(tagged `char_fuzzy`, score `round(best, 2)`). -/
theorem autocomplete_provenance {fts : Str → List Row} {rows : List Row} {q : Str}
    {limit : Nat} {s : Suggestion} (h : s ∈ autocomplete fts rows q limit) :
    (∃ r ∈ fts (exactTerm (pyStrip q)), s = mkSug r tagExact 1) ∨
      (∃ r ∈ fts (fuzzyTerm (pyStrip q) (pySplit (normalizeName (pyStrip q)))),
        s = mkSug r tagWord (4/5)) ∨
      (∃ r ∈ rows, ∃ v, bestScore3 (normalizeName (pyStrip q))
          (pySplit (normalizeName (pyStrip q))) r.name = some v ∧
        s = mkSug r tagChar (roundQ2 v)) := by
  by_cases he : pyStrip q = []
  · rw [autocomplete_empty fts rows limit he] at h
    simp at h
  · rw [autocomplete_eq fts rows limit he] at h
    have h1 := List.mem_of_mem_take h
    rcases stage3Apply_mem h1 with h2 | h2
    · rcases stage2_mem h2 with h3 | ⟨r, hr, hs⟩
      · rcases stage1_mem h3 with ⟨r, hr, hs⟩
        exact Or.inl ⟨r, hr, hs⟩
      · exact Or.inr (Or.inl ⟨r, hr, hs⟩)
    · rcases mem_stage3Candidates.mp h2 with ⟨r, hr, _, _, v, hv, hs⟩
      exact Or.inr (Or.inr ⟨r, hr, v, hv, hs⟩)

/-- C8: for every oracle, index state, query and limit, the suggestion list
returned by the search pipeline has length at most `limit` (the merged stage
outputs are truncated to `limit` before being returned). -/
theorem C8_result_length_le_limit (fts : Str → List Row) (rows : List Row) (q : Str)
    (limit : Nat) : (autocomplete fts rows q limit).length ≤ limit := by
  by_cases he : pyStrip q = []
  · rw [autocomplete_empty fts rows limit he]
    simp
  · rw [autocomplete_eq fts rows limit he]
    exact List.length_take_le _ _

/-- C9: a query that is empty or all whitespace strips to the empty string,
and the pipeline returns the empty suggestion list for it, for every oracle,
index state and limit. -/
theorem C9_blank_query_empty_result (fts : Str → List Row) (rows : List Row) (q : Str)
    (limit : Nat) (h : ∀ c ∈ q, isPySpace c = true) : autocomplete fts rows q limit = [] := by
  apply autocomplete_empty
  unfold pyStrip
  have h1 : List.dropWhile isPySpace q = [] := by
    induction q with
    | nil => rfl
    | cons c t ih =>
      rw [List.dropWhile_cons_of_pos (h c (List.mem_cons_self _ _))]
      exact ih (fun d hd => h d (List.mem_cons_of_mem _ hd))
  rw [h1]
  simp

/-- C9, witness: the whitespace-only query `" \t "` yields `[]`. -/
theorem C9_blank_query_witness :
    autocomplete (fun _ => []) [] ((" \t ").toList) 10 = [] :=
  C9_blank_query_empty_result (fun _ => []) [] ((" \t ").toList) 10 (by decide)

/-- C10: every returned suggestion scores in `[0.5, 1]`: Stage 1 suggestions
score exactly `1.0`, Stage 2 suggestions exactly `0.8`, and Stage 3
suggestions carry `round(best, 2)` of a best-strategy value in `[0.5, 1]`
(the floor comes from the `0.5` per-word threshold inside the word-average
strategy, whose mean is accepted unfiltered). -/
theorem C10_score_range (fts : Str → List Row) (rows : List Row) (q : Str) (limit : Nat)
    (s : Suggestion) (h : s ∈ autocomplete fts rows q limit) :
    (1/2 ≤ s.score ∧ s.score ≤ 1) ∧
      (s.match_type = tagExact ∧ s.score = 1 ∨
        s.match_type = tagWord ∧ s.score = 4/5 ∨
        s.match_type = tagChar ∧ ∃ v, 1/2 ≤ v ∧ v ≤ 1 ∧ s.score = roundQ2 v) := by
  rcases autocomplete_provenance h with ⟨r, _, hs⟩ | ⟨r, _, hs⟩ | ⟨r, _, v, hv, hs⟩ <;> subst hs
  · exact ⟨⟨by norm_num [mkSug], le_refl 1⟩, Or.inl ⟨rfl, rfl⟩⟩
  · exact ⟨⟨by norm_num [mkSug], by norm_num [mkSug]⟩, Or.inr (Or.inl ⟨rfl, rfl⟩)⟩
  · obtain ⟨h1, h2⟩ := bestScore3_bounds hv
    obtain ⟨h3, h4⟩ := roundQ2_bounds h1 h2
    exact ⟨⟨h3, h4⟩, Or.inr (Or.inr ⟨rfl, v, h1, h2, rfl⟩)⟩

/-- C10, witness: a concrete pipeline run returning one Stage 1 suggestion
with score `1.0`. -/
theorem C10_score_range_witness :
    (1/2 ≤ (mkSug ⟨Sum.inl 1, ("game").toList, ("x").toList, none⟩ tagExact 1).score ∧
        (mkSug ⟨Sum.inl 1, ("game").toList, ("x").toList, none⟩ tagExact 1).score ≤ 1) ∧
      ((mkSug ⟨Sum.inl 1, ("game").toList, ("x").toList, none⟩ tagExact 1).match_type = tagExact ∧
          (mkSug ⟨Sum.inl 1, ("game").toList, ("x").toList, none⟩ tagExact 1).score = 1 ∨
        (mkSug ⟨Sum.inl 1, ("game").toList, ("x").toList, none⟩ tagExact 1).match_type = tagWord ∧
          (mkSug ⟨Sum.inl 1, ("game").toList, ("x").toList, none⟩ tagExact 1).score = 4/5 ∨
        (mkSug ⟨Sum.inl 1, ("game").toList, ("x").toList, none⟩ tagExact 1).match_type = tagChar ∧
          ∃ v, 1/2 ≤ v ∧ v ≤ 1 ∧
            (mkSug ⟨Sum.inl 1, ("game").toList, ("x").toList, none⟩ tagExact 1).score = roundQ2 v) :=
  C10_score_range
    (fun t => if t = exactTerm (("x").toList) then
      [⟨Sum.inl 1, ("game").toList, ("x").toList, none⟩] else [])
    [] (("x").toList) 10
    (mkSug ⟨Sum.inl 1, ("game").toList, ("x").toList, none⟩ tagExact 1)
    (by with_unfolding_all decide)

/-- C4: stage gating.  If Stage 1 already produced `limit` or more distinct
candidates, the result is exactly the first `limit` Stage 1 suggestions and
is unchanged under any change to the Stage 2 oracle answer or the Stage 3
table scan (Stages 2 and 3 contribute nothing); if Stages 1-2 together
reach `limit`, the result is their first `limit` suggestions and is
unchanged under any change to the table scan; and whenever the earlier
stages are still short of `limit`, the pipeline emits exactly the Stage 3
merge `takeUntilLimit` over the sorted candidate scan. -/
theorem C4_stage_gating (fts fts2 : Str → List Row) (rows rows2 : List Row) (q : Str)
    (limit : Nat) (hq : pyStrip q ≠ []) :
    (limit ≤ (stage1State fts (pyStrip q) limit).1.length →
      autocomplete fts rows q limit = (stage1State fts (pyStrip q) limit).1.take limit ∧
        (fts2 (exactTerm (pyStrip q)) = fts (exactTerm (pyStrip q)) →
          autocomplete fts2 rows2 q limit = autocomplete fts rows q limit)) ∧
    ((stage1State fts (pyStrip q) limit).1.length < limit →
      limit ≤ (stage2State fts (pyStrip q) (pySplit (normalizeName (pyStrip q))) limit
          (stage1State fts (pyStrip q) limit)).1.length →
        autocomplete fts rows q limit = (stage2State fts (pyStrip q)
            (pySplit (normalizeName (pyStrip q))) limit
            (stage1State fts (pyStrip q) limit)).1.take limit ∧
          autocomplete fts rows2 q limit = autocomplete fts rows q limit) ∧
    ((stage2State fts (pyStrip q) (pySplit (normalizeName (pyStrip q))) limit
        (stage1State fts (pyStrip q) limit)).1.length < limit →
      autocomplete fts rows q limit = takeUntilLimit limit
        (stage2State fts (pyStrip q) (pySplit (normalizeName (pyStrip q))) limit
          (stage1State fts (pyStrip q) limit)).1
        (sortDesc (stage3Candidates rows
          (stage2State fts (pyStrip q) (pySplit (normalizeName (pyStrip q))) limit
            (stage1State fts (pyStrip q) limit)).2
          (normalizeName (pyStrip q)) (pySplit (normalizeName (pyStrip q)))))) := by
  refine ⟨?_, ?_, ?_⟩
  · intro h1
    have hs2 : ∀ (g : Str → List Row),
        stage2State g (pyStrip q) (pySplit (normalizeName (pyStrip q))) limit
          (stage1State fts (pyStrip q) limit) = stage1State fts (pyStrip q) limit := by
      intro g
      unfold stage2State
      rw [if_neg (not_lt.mpr h1)]
    have hs3 : ∀ (rws : List Row),
        stage3Apply rws (normalizeName (pyStrip q)) (pySplit (normalizeName (pyStrip q))) limit
          (stage1State fts (pyStrip q) limit) = (stage1State fts (pyStrip q) limit).1 := by
      intro rws
      unfold stage3Apply
      rw [if_neg (not_lt.mpr h1)]
    constructor
    · rw [autocomplete_eq fts rows limit hq, hs2 fts, hs3 rows]
    · intro hagree
      have h0 : stage1State fts2 (pyStrip q) limit = stage1State fts (pyStrip q) limit := by
        unfold stage1State
        rw [hagree]
      rw [autocomplete_eq fts2 rows2 limit hq, autocomplete_eq fts rows limit hq, h0,
        hs2 fts2, hs2 fts, hs3 rows2, hs3 rows]
  · intro h1 h2
    have hs3 : ∀ (rws : List Row),
        stage3Apply rws (normalizeName (pyStrip q)) (pySplit (normalizeName (pyStrip q))) limit
          (stage2State fts (pyStrip q) (pySplit (normalizeName (pyStrip q))) limit
            (stage1State fts (pyStrip q) limit)) =
          (stage2State fts (pyStrip q) (pySplit (normalizeName (pyStrip q))) limit
            (stage1State fts (pyStrip q) limit)).1 := by
      intro rws
      unfold stage3Apply
      rw [if_neg (not_lt.mpr h2)]
    constructor
    · rw [autocomplete_eq fts rows limit hq, hs3 rows]
    · rw [autocomplete_eq fts rows2 limit hq, autocomplete_eq fts rows limit hq,
        hs3 rows2, hs3 rows]
  · intro h2
    rw [autocomplete_eq fts rows limit hq]
    unfold stage3Apply
    rw [if_pos h2]
    apply List.take_of_length_le
    rw [takeUntilLimit_eq]
    simp only [List.length_append, List.length_take]
    omega

/-- C4, witness: with an oracle whose prefix lookup already fills
`limit = 1`, the result is the first Stage 1 suggestion and Stages 2-3 are
irrelevant. -/
theorem C4_stage_gating_witness :
    autocomplete
        (fun t => if t = exactTerm (("x").toList) then
          [⟨Sum.inl 1, ("game").toList, ("x").toList, none⟩] else [])
        [⟨Sum.inl 2, ("game").toList, ("y").toList, none⟩] (("x").toList) 1 =
      (stage1State
        (fun t => if t = exactTerm (("x").toList) then
          [⟨Sum.inl 1, ("game").toList, ("x").toList, none⟩] else [])
        (pyStrip (("x").toList)) 1).1.take 1 :=
  ((C4_stage_gating
      (fun t => if t = exactTerm (("x").toList) then
        [⟨Sum.inl 1, ("game").toList, ("x").toList, none⟩] else [])
      (fun _ => []) [⟨Sum.inl 2, ("game").toList, ("y").toList, none⟩] [] (("x").toList) 1
      (by decide)).1 (by with_unfolding_all decide)).1

theorem listMax_eq_some_iff {l : List ℚ} {v : ℚ} :
    listMax l = some v ↔ v ∈ l ∧ ∀ x ∈ l, x ≤ v := by
  constructor
  · intro h
    exact ⟨listMax_mem h, listMax_ge h⟩
  · intro ⟨hv, hb⟩
    induction l with
    | nil => simp at hv
    | cons x t ih =>
      rw [listMax]
      cases hm : listMax t with
      | none =>
        rw [listMax_eq_none hm] at hv
        simp only [List.mem_singleton] at hv
        simp [hv]
      | some m =>
        have hxv : x ≤ v := hb x (List.mem_cons_self _ _)
        have hmv : m ≤ v := hb m (List.mem_cons_of_mem _ (listMax_mem hm))
        have hvmax : v ≤ max x m := by
          rcases List.mem_cons.mp hv with h1 | h1
          · rw [h1]; exact le_max_left _ _
          · exact le_trans (listMax_ge hm v h1) (le_max_right _ _)
        have : max x m = v := le_antisymm (max_le hxv hmv) hvmax
        simp [this]

/-- C5: when Stage 3 runs, the pipeline emits exactly the limit-bounded merge
of the candidate scan sorted stably by score descending: the emitted order is
sorted descending, candidates of equal score keep index scan order, the
sorted list is a permutation of the scan output, and a scanned row
contributes a candidate exactly when some strategy qualifies - tagged
`char_fuzzy` and scored with the rounded maximum over its qualifying
strategy values (rows with no qualifying strategy are excluded). -/
theorem C5_stage3_emission (fts : Str → List Row) (rows : List Row) (q : Str) (limit : Nat)
    (hq : pyStrip q ≠ [])
    (h2 : (stage2State fts (pyStrip q) (pySplit (normalizeName (pyStrip q))) limit
      (stage1State fts (pyStrip q) limit)).1.length < limit) :
    (autocomplete fts rows q limit = takeUntilLimit limit
      (stage2State fts (pyStrip q) (pySplit (normalizeName (pyStrip q))) limit
        (stage1State fts (pyStrip q) limit)).1
      (sortDesc (stage3Candidates rows
        (stage2State fts (pyStrip q) (pySplit (normalizeName (pyStrip q))) limit
          (stage1State fts (pyStrip q) limit)).2
        (normalizeName (pyStrip q)) (pySplit (normalizeName (pyStrip q)))))) ∧
    (sortDesc (stage3Candidates rows
        (stage2State fts (pyStrip q) (pySplit (normalizeName (pyStrip q))) limit
          (stage1State fts (pyStrip q) limit)).2
        (normalizeName (pyStrip q)) (pySplit (normalizeName (pyStrip q))))).Sorted
      (fun a b => b.score ≤ a.score) ∧
    (∀ v : ℚ, (sortDesc (stage3Candidates rows
        (stage2State fts (pyStrip q) (pySplit (normalizeName (pyStrip q))) limit
          (stage1State fts (pyStrip q) limit)).2
        (normalizeName (pyStrip q)) (pySplit (normalizeName (pyStrip q))))).filter
          (fun s => decide (s.score = v)) =
      (stage3Candidates rows
        (stage2State fts (pyStrip q) (pySplit (normalizeName (pyStrip q))) limit
          (stage1State fts (pyStrip q) limit)).2
        (normalizeName (pyStrip q)) (pySplit (normalizeName (pyStrip q)))).filter
          (fun s => decide (s.score = v))) ∧
    List.Perm (sortDesc (stage3Candidates rows
        (stage2State fts (pyStrip q) (pySplit (normalizeName (pyStrip q))) limit
          (stage1State fts (pyStrip q) limit)).2
        (normalizeName (pyStrip q)) (pySplit (normalizeName (pyStrip q)))))
      (stage3Candidates rows
        (stage2State fts (pyStrip q) (pySplit (normalizeName (pyStrip q))) limit
          (stage1State fts (pyStrip q) limit)).2
        (normalizeName (pyStrip q)) (pySplit (normalizeName (pyStrip q)))) ∧
    (∀ s : Suggestion, s ∈ stage3Candidates rows
        (stage2State fts (pyStrip q) (pySplit (normalizeName (pyStrip q))) limit
          (stage1State fts (pyStrip q) limit)).2
        (normalizeName (pyStrip q)) (pySplit (normalizeName (pyStrip q))) ↔
      ∃ r ∈ rows, (r.item_type = ("game").toList ∨ r.item_type = ("platform").toList) ∧
        keyOf r ∉ (stage2State fts (pyStrip q) (pySplit (normalizeName (pyStrip q))) limit
          (stage1State fts (pyStrip q) limit)).2 ∧
        ∃ v, (v ∈ strategyScores (normalizeName (pyStrip q))
              (pySplit (normalizeName (pyStrip q))) r.name ∧
            ∀ x ∈ strategyScores (normalizeName (pyStrip q))
              (pySplit (normalizeName (pyStrip q))) r.name, x ≤ v) ∧
          s = mkSug r tagChar (roundQ2 v)) := by
  refine ⟨?_, sortDesc_sorted _, fun v => sortDesc_filter v _, sortDesc_perm _, ?_⟩
  · rw [autocomplete_eq fts rows limit hq]
    unfold stage3Apply
    rw [if_pos h2]
    apply List.take_of_length_le
    rw [takeUntilLimit_eq]
    simp only [List.length_append, List.length_take]
    omega
  · intro s
    rw [mem_stage3Candidates]
    constructor
    · rintro ⟨r, hr, ht, hseen, v, hv, hs⟩
      exact ⟨r, hr, ht, hseen, v, listMax_eq_some_iff.mp hv, hs⟩
    · rintro ⟨r, hr, ht, hseen, v, hv, hs⟩
      exact ⟨r, hr, ht, hseen, v, listMax_eq_some_iff.mpr hv, hs⟩

/-- C5, witness: the emission equation instantiated at an empty index. -/
theorem C5_stage3_emission_witness :
    autocomplete (fun _ => []) [] (("x").toList) 5 = takeUntilLimit 5
      (stage2State (fun _ => []) (pyStrip (("x").toList))
        (pySplit (normalizeName (pyStrip (("x").toList)))) 5
        (stage1State (fun _ => []) (pyStrip (("x").toList)) 5)).1
      (sortDesc (stage3Candidates []
        (stage2State (fun _ => []) (pyStrip (("x").toList))
          (pySplit (normalizeName (pyStrip (("x").toList)))) 5
          (stage1State (fun _ => []) (pyStrip (("x").toList)) 5)).2
        (normalizeName (pyStrip (("x").toList)))
        (pySplit (normalizeName (pyStrip (("x").toList)))))) :=
  (C5_stage3_emission (fun _ => []) [] (("x").toList) 5 (by decide)
    (by with_unfolding_all decide)).1

/-- C6: when the index rows carry pairwise distinct `(type, id)` keys (the
documented index invariant), no two suggestions in a result list share the
same `(type, id)`; in particular no entity appears under two match kinds in
the same result. -/
theorem C6_no_duplicate_keys (fts : Str → List Row) (rows : List Row) (q : Str) (limit : Nat)
    (h : (rows.map keyOf).Nodup) :
    ((autocomplete fts rows q limit).map sugKey).Nodup := by
  by_cases he : pyStrip q = []
  · rw [autocomplete_empty fts rows limit he]
    simp
  · rw [autocomplete_eq fts rows limit he]
    apply List.Sublist.nodup (List.Sublist.map sugKey (List.take_sublist _ _))
    have hsync2 : (stage2State fts (pyStrip q) (pySplit (normalizeName (pyStrip q))) limit
        (stage1State fts (pyStrip q) limit)).2 =
        (stage2State fts (pyStrip q) (pySplit (normalizeName (pyStrip q))) limit
          (stage1State fts (pyStrip q) limit)).1.map sugKey :=
      stage2_sync _ _ _ _ _ (stage1_sync _ _ _)
    have hnd2 : (stage2State fts (pyStrip q) (pySplit (normalizeName (pyStrip q))) limit
        (stage1State fts (pyStrip q) limit)).2.Nodup :=
      stage2_nodup _ _ _ _ _ (stage1_nodup _ _ _)
    unfold stage3Apply
    by_cases hc : (stage2State fts (pyStrip q) (pySplit (normalizeName (pyStrip q))) limit
        (stage1State fts (pyStrip q) limit)).1.length < limit
    · rw [if_pos hc, takeUntilLimit_eq, List.map_append, List.nodup_append]
      refine ⟨by rw [← hsync2]; exact hnd2, ?_, ?_⟩
      · rw [List.map_take]
        apply List.Sublist.nodup (List.take_sublist _ _)
        apply (List.Perm.nodup_iff (List.Perm.map sugKey (sortDesc_perm _))).mpr
        exact List.Sublist.nodup (stage3Candidates_keys_sublist _ _ _ _) h
      · intro k hk1 hk2
        rw [List.map_take] at hk2
        have hk3 := List.mem_of_mem_take hk2
        rcases List.mem_map.mp hk3 with ⟨s, hs, hks⟩
        have hs2 : s ∈ stage3Candidates rows
            (stage2State fts (pyStrip q) (pySplit (normalizeName (pyStrip q))) limit
              (stage1State fts (pyStrip q) limit)).2
            (normalizeName (pyStrip q)) (pySplit (normalizeName (pyStrip q))) :=
          (sortDesc_perm _).mem_iff.mp hs
        have := stage3Candidates_unseen hs2
        rw [hks] at this
        rw [← hsync2] at hk1
        exact this hk1
    · rw [if_neg hc, ← hsync2]
      exact hnd2

/-- C6, witness: a two-row index with distinct keys. -/
theorem C6_no_duplicate_keys_witness :
    ((autocomplete (fun _ => []) [⟨Sum.inl 1, ("game").toList, ("x").toList, none⟩,
        ⟨Sum.inr (("s").toList), ("platform").toList, ("y").toList, none⟩]
      (("x").toList) 5).map sugKey).Nodup :=
  C6_no_duplicate_keys (fun _ => []) [⟨Sum.inl 1, ("game").toList, ("x").toList, none⟩,
      ⟨Sum.inr (("s").toList), ("platform").toList, ("y").toList, none⟩]
    (("x").toList) 5 (by decide)

/-- Modelled from the spec: the index-native token/prefix MATCH semantics of
the external FTS5 engine (the engine itself is not part of the repository).
Spec §4.3 sends the raw, non-normalized query with an appended wildcard as a
conjunctive token/prefix query, so for the Stage 1 term `The Witcher*` the
index returns no row for the entity named `Witcher` - that row has no token
`the` - while the Stage 2 disjunctive term `(witcher) OR "The Witcher*"`
(§4.4) matches the row's token `witcher`. -/
def witcherOracle : Str → List Row := fun t =>
  if t = fuzzyTerm (("The Witcher").toList) [("witcher").toList] then
    [⟨Sum.inl 1, ("game").toList, ("Witcher").toList, none⟩] else []

/-- C3, counterexample.  The query `"The Witcher"` and the stored name
`"Witcher"` normalize identically (the article is stripped), but Stage 1
matches on the raw query, whose `the` token the candidate lacks; the entity
comes back from Stage 2 tagged `fts_word_fuzzy` with score `0.8`, and no
suggestion in the result is tagged `fts_exact_prefix` with score `1.0`. -/
theorem C3_counterexample :
    normalizeName (("The Witcher").toList) = normalizeName (("Witcher").toList) ∧
      autocomplete witcherOracle [⟨Sum.inl 1, ("game").toList, ("Witcher").toList, none⟩]
          (("The Witcher").toList) 5 =
        [mkSug ⟨Sum.inl 1, ("game").toList, ("Witcher").toList, none⟩ tagWord (4/5)] ∧
      ¬ ∃ s ∈ autocomplete witcherOracle
          [⟨Sum.inl 1, ("game").toList, ("Witcher").toList, none⟩]
          (("The Witcher").toList) 5,
        s.match_type = tagExact ∧ s.score = 1 := by
  refine ⟨by decide, by with_unfolding_all decide, by with_unfolding_all decide⟩

/-- C3, amended: every suggestion Stage 1 produces is tagged
`fts_exact_prefix` with score `1.0` and corresponds to a row the index
returned for the raw query with a wildcard appended; and whenever Stage 1
yields at most `limit` distinct candidates, all of them open the final
result list.  An entity whose normalized name equals the normalized query is
only guaranteed to appear this way when the index prefix lookup actually
returns its row. -/
theorem C3_stage1_amended (fts : Str → List Row) (rows : List Row) (q : Str) (limit : Nat)
    (hq : pyStrip q ≠ []) :
    (∀ s ∈ (stage1State fts (pyStrip q) limit).1, s.match_type = tagExact ∧ s.score = 1 ∧
      ∃ r ∈ fts (exactTerm (pyStrip q)), s = mkSug r tagExact 1) ∧
    ((stage1State fts (pyStrip q) limit).1.length ≤ limit →
      (stage1State fts (pyStrip q) limit).1 <+: autocomplete fts rows q limit) := by
  constructor
  · intro s hs
    rcases stage1_mem hs with ⟨r, hr, hmk⟩
    subst hmk
    exact ⟨rfl, rfl, r, hr, rfl⟩
  · intro hlen
    have hpre2 : (stage1State fts (pyStrip q) limit).1 <+:
        (stage2State fts (pyStrip q) (pySplit (normalizeName (pyStrip q))) limit
          (stage1State fts (pyStrip q) limit)).1 :=
      stage2_prefix _ _ _ _ _
    have hpre3 : (stage2State fts (pyStrip q) (pySplit (normalizeName (pyStrip q))) limit
        (stage1State fts (pyStrip q) limit)).1 <+:
        stage3Apply rows (normalizeName (pyStrip q)) (pySplit (normalizeName (pyStrip q))) limit
          (stage2State fts (pyStrip q) (pySplit (normalizeName (pyStrip q))) limit
            (stage1State fts (pyStrip q) limit)) := by
      unfold stage3Apply
      by_cases hc : (stage2State fts (pyStrip q) (pySplit (normalizeName (pyStrip q))) limit
          (stage1State fts (pyStrip q) limit)).1.length < limit
      · rw [if_pos hc, takeUntilLimit_eq]
        exact ⟨_, rfl⟩
      · rw [if_neg hc]
    obtain ⟨t, ht⟩ := hpre2.trans hpre3
    rw [autocomplete_eq fts rows limit hq, ← ht, List.take_append_eq_append_take,
      List.take_of_length_le hlen]
    exact ⟨_, rfl⟩

/-- C3, witness for the amended theorem: a single Stage 1 hit opens the
result. -/
theorem C3_stage1_amended_witness :
    (stage1State
        (fun t => if t = exactTerm (("x").toList) then
          [⟨Sum.inl 1, ("game").toList, ("x").toList, none⟩] else [])
        (pyStrip (("x").toList)) 5).1 <+:
      autocomplete
        (fun t => if t = exactTerm (("x").toList) then
          [⟨Sum.inl 1, ("game").toList, ("x").toList, none⟩] else [])
        [] (("x").toList) 5 :=
  (C3_stage1_amended
      (fun t => if t = exactTerm (("x").toList) then
        [⟨Sum.inl 1, ("game").toList, ("x").toList, none⟩] else [])
      [] (("x").toList) 5 (by decide)).2 (by with_unfolding_all decide)

/-! ### Index synchronization (trigger model) -/

theorem synced_insertGame {g : Game} {s : DbState} (h : Synced s)
    (hfresh : g.id ∉ s.games.map Game.id) : Synced (insertGame g s) := by
  obtain ⟨hp, hg, hpl⟩ := h
  refine ⟨?_, ?_, ?_⟩
  · show (s.idx ++ [gameIdxRow g]).Perm
      ((s.games ++ [g]).map gameIdxRow ++ s.platforms.map platformIdxRow)
    simp only [List.map_append, List.map_cons, List.map_nil]
    have h1 : (s.idx ++ [gameIdxRow g]).Perm
        ((s.games.map gameIdxRow ++ s.platforms.map platformIdxRow) ++ [gameIdxRow g]) :=
      hp.append_right _
    refine h1.trans ?_
    rw [List.append_assoc, List.append_assoc]
    exact List.Perm.append_left _ List.perm_append_comm
  · show ((s.games ++ [g]).map Game.id).Nodup
    rw [List.map_append]
    simp only [List.nodup_append, List.map_cons, List.map_nil]
    exact ⟨hg, by simp, by simpa using hfresh⟩
  · exact hpl

theorem synced_updateGame {gid : Nat} {u : Game → Game} {s : DbState} (h : Synced s)
    (hu : ∀ g, (u g).id = g.id) : Synced (updateGame gid u s) := by
  obtain ⟨hp, hg, hpl⟩ := h
  unfold updateGame
  cases hfind : s.games.find? (fun g => decide (g.id = gid)) with
  | none => exact ⟨hp, hg, hpl⟩
  | some g =>
    have hgmem : g ∈ s.games := List.mem_of_find?_eq_some hfind
    have hgid : g.id = gid := by
      have := List.find?_some hfind
      simpa using this
    refine ⟨?_, ?_, hpl⟩
    · have h1 := hp.map (fun r =>
        if r.row_id = Sum.inl gid ∧ r.item_type = ("game").toList then
          ⟨r.row_id, r.item_type, (u g).name, ctxGame (u g)⟩
        else r)
      refine h1.trans ?_
      rw [List.map_append]
      have h2 : (s.games.map gameIdxRow).map (fun r =>
          if r.row_id = Sum.inl gid ∧ r.item_type = ("game").toList then
            ⟨r.row_id, r.item_type, (u g).name, ctxGame (u g)⟩
          else r) =
          (s.games.map (fun x => if x.id = gid then u x else x)).map gameIdxRow := by
        rw [List.map_map, List.map_map]
        apply List.map_congr_left
        intro x hx
        simp only [Function.comp]
        by_cases hxid : x.id = gid
        · have hxg : x = g := List.inj_on_of_nodup_map hg hx hgmem (by rw [hxid, hgid])
          rw [if_pos (by simp [gameIdxRow, hxid]), if_pos hxid]
          subst hxg
          unfold gameIdxRow
          have : (u x).id = x.id := hu x
          simp [this, hxid]
        · rw [if_neg (by simp [gameIdxRow, hxid]), if_neg hxid]
      have h3 : (s.platforms.map platformIdxRow).map (fun r =>
          if r.row_id = Sum.inl gid ∧ r.item_type = ("game").toList then
            ⟨r.row_id, r.item_type, (u g).name, ctxGame (u g)⟩
          else r) = s.platforms.map platformIdxRow := by
        rw [List.map_map]
        apply List.map_congr_left
        intro p _
        simp [Function.comp, platformIdxRow]
      rw [h2, h3]
    · have : (s.games.map (fun x => if x.id = gid then u x else x)).map Game.id =
          s.games.map Game.id := by
        rw [List.map_map]
        apply List.map_congr_left
        intro x _
        simp only [Function.comp]
        by_cases hxid : x.id = gid
        · rw [if_pos hxid, hu x]
        · rw [if_neg hxid]
      rw [this]
      exact hg

theorem synced_deleteGame {gid : Nat} {s : DbState} (h : Synced s) :
    Synced (deleteGame gid s) := by
  obtain ⟨hp, hg, hpl⟩ := h
  unfold deleteGame
  by_cases hany : s.games.any (fun g => decide (g.id = gid))
  · rw [if_pos hany]
    refine ⟨?_, ?_, hpl⟩
    · have h1 := hp.filter (fun r =>
        decide (¬ (r.row_id = Sum.inl gid ∧ r.item_type = ("game").toList)))
      refine h1.trans ?_
      rw [List.filter_append]
      have h2 : (s.games.map gameIdxRow).filter (fun r =>
          decide (¬ (r.row_id = Sum.inl gid ∧ r.item_type = ("game").toList))) =
          (s.games.filter (fun g => decide (¬ g.id = gid))).map gameIdxRow := by
        rw [List.filter_map]
        congr 1
        apply List.filter_congr
        intro x _
        simp [Function.comp, gameIdxRow]
      have h3 : (s.platforms.map platformIdxRow).filter (fun r =>
          decide (¬ (r.row_id = Sum.inl gid ∧ r.item_type = ("game").toList))) =
          s.platforms.map platformIdxRow := by
        rw [List.filter_eq_self]
        intro r hr
        rcases List.mem_map.mp hr with ⟨p, _, hpr⟩
        subst hpr
        simp [platformIdxRow]
      rw [h2, h3]
    · apply List.Sublist.nodup (List.Sublist.map Game.id (List.filter_sublist _))
      exact hg
  · rw [if_neg hany]
    exact ⟨hp, hg, hpl⟩

theorem synced_insertPlatform {p : Platform} {s : DbState} (h : Synced s) :
    Synced (insertPlatform p s) := by
  obtain ⟨hp, hg, hpl⟩ := h
  unfold insertPlatform
  by_cases hany : s.platforms.any (fun q => decide (q.id = p.id ∨ q.name = p.name))
  · rw [if_pos hany]
    exact ⟨hp, hg, hpl⟩
  · rw [if_neg hany]
    refine ⟨?_, hg, ?_⟩
    · show (s.idx ++ [platformIdxRow p]).Perm
        (s.games.map gameIdxRow ++ (s.platforms ++ [p]).map platformIdxRow)
      simp only [List.map_append, List.map_cons, List.map_nil]
      have h1 : (s.idx ++ [platformIdxRow p]).Perm
          ((s.games.map gameIdxRow ++ s.platforms.map platformIdxRow) ++ [platformIdxRow p]) :=
        hp.append_right _
      refine h1.trans ?_
      rw [List.append_assoc]
    · show ((s.platforms ++ [p]).map Platform.id).Nodup
      rw [List.map_append]
      simp only [List.nodup_append, List.map_cons, List.map_nil]
      refine ⟨hpl, by simp, ?_⟩
      intro x hx
      simp only [List.mem_cons, List.not_mem_nil, or_false]
      rcases List.mem_map.mp hx with ⟨q, hq, hqx⟩
      intro hxp
      apply hany
      rw [List.any_eq_true]
      exact ⟨q, hq, by simp [hqx ▸ hxp]⟩

theorem synced_updatePlatform {pid : Str} {u : Platform → Platform} {s : DbState}
    (h : Synced s) (hu : ∀ p, (u p).id = p.id) : Synced (updatePlatform pid u s) := by
  obtain ⟨hp, hg, hpl⟩ := h
  unfold updatePlatform
  cases hfind : s.platforms.find? (fun p => decide (p.id = pid)) with
  | none => exact ⟨hp, hg, hpl⟩
  | some p =>
    have hpmem : p ∈ s.platforms := List.mem_of_find?_eq_some hfind
    have hpid : p.id = pid := by
      have := List.find?_some hfind
      simpa using this
    refine ⟨?_, hg, ?_⟩
    · have h1 := hp.map (fun r =>
        if r.row_id = Sum.inr pid ∧ r.item_type = ("platform").toList then
          ⟨r.row_id, r.item_type, (u p).name, ctxPlatform (u p)⟩
        else r)
      refine h1.trans ?_
      rw [List.map_append]
      have h2 : (s.games.map gameIdxRow).map (fun r =>
          if r.row_id = Sum.inr pid ∧ r.item_type = ("platform").toList then
            ⟨r.row_id, r.item_type, (u p).name, ctxPlatform (u p)⟩
          else r) = s.games.map gameIdxRow := by
        rw [List.map_map]
        apply List.map_congr_left
        intro g _
        simp [Function.comp, gameIdxRow]
      have h3 : (s.platforms.map platformIdxRow).map (fun r =>
          if r.row_id = Sum.inr pid ∧ r.item_type = ("platform").toList then
            ⟨r.row_id, r.item_type, (u p).name, ctxPlatform (u p)⟩
          else r) =
          (s.platforms.map (fun x => if x.id = pid then u x else x)).map platformIdxRow := by
        rw [List.map_map, List.map_map]
        apply List.map_congr_left
        intro x hx
        simp only [Function.comp]
        by_cases hxid : x.id = pid
        · have hxp : x = p := List.inj_on_of_nodup_map hpl hx hpmem (by rw [hxid, hpid])
          rw [if_pos (by simp [platformIdxRow, hxid]), if_pos hxid]
          subst hxp
          unfold platformIdxRow
          have : (u x).id = x.id := hu x
          simp [this, hxid]
        · rw [if_neg (by simp [platformIdxRow, hxid]), if_neg hxid]
      rw [h2, h3]
    · have : (s.platforms.map (fun x => if x.id = pid then u x else x)).map Platform.id =
          s.platforms.map Platform.id := by
        rw [List.map_map]
        apply List.map_congr_left
        intro x _
        simp only [Function.comp]
        by_cases hxid : x.id = pid
        · rw [if_pos hxid, hu x]
        · rw [if_neg hxid]
      rw [this]
      exact hpl

theorem synced_deletePlatform {pid : Str} {s : DbState} (h : Synced s) :
    Synced (deletePlatform pid s) := by
  obtain ⟨hp, hg, hpl⟩ := h
  unfold deletePlatform
  by_cases hany : s.platforms.any (fun p => decide (p.id = pid))
  · rw [if_pos hany]
    refine ⟨?_, hg, ?_⟩
    · have h1 := hp.filter (fun r =>
        decide (¬ (r.row_id = Sum.inr pid ∧ r.item_type = ("platform").toList)))
      refine h1.trans ?_
      rw [List.filter_append]
      have h2 : (s.games.map gameIdxRow).filter (fun r =>
          decide (¬ (r.row_id = Sum.inr pid ∧ r.item_type = ("platform").toList))) =
          s.games.map gameIdxRow := by
        rw [List.filter_eq_self]
        intro r hr
        rcases List.mem_map.mp hr with ⟨g, _, hgr⟩
        subst hgr
        simp [gameIdxRow]
      have h3 : (s.platforms.map platformIdxRow).filter (fun r =>
          decide (¬ (r.row_id = Sum.inr pid ∧ r.item_type = ("platform").toList))) =
          (s.platforms.filter (fun p => decide (¬ p.id = pid))).map platformIdxRow := by
        rw [List.filter_map]
        congr 1
        apply List.filter_congr
        intro x _
        simp [Function.comp, platformIdxRow]
      rw [h2, h3]
    · apply List.Sublist.nodup (List.Sublist.map Platform.id (List.filter_sublist _))
      exact hpl
  · rw [if_neg hany]
    exact ⟨hp, hg, hpl⟩

theorem deleteGame_key_gone {gid : Nat} {s : DbState} (h : Synced s) :
    ∀ r ∈ (deleteGame gid s).idx, keyOf r ≠ ((("game").toList : Str), (Sum.inl gid : Ident)) := by
  intro r hr hk
  have hkey : r.item_type = ("game").toList ∧ r.row_id = Sum.inl gid := by
    unfold keyOf at hk
    exact ⟨congrArg Prod.fst hk, congrArg Prod.snd hk⟩
  unfold deleteGame at hr
  by_cases hany : s.games.any (fun g => decide (g.id = gid))
  · rw [if_pos hany] at hr
    have hcond := (List.mem_filter.mp hr).2
    simp only [decide_eq_true_eq] at hcond
    exact hcond ⟨hkey.2, hkey.1⟩
  · rw [if_neg hany] at hr
    have hr2 : r ∈ s.games.map gameIdxRow ++ s.platforms.map platformIdxRow :=
      h.1.mem_iff.mp hr
    rcases List.mem_append.mp hr2 with h1 | h1
    · rcases List.mem_map.mp h1 with ⟨g, hg, hgr⟩
      subst hgr
      have hgid : g.id = gid := by
        have := hkey.2
        simpa [gameIdxRow] using this
      apply hany
      rw [List.any_eq_true]
      exact ⟨g, hg, by simp [hgid]⟩
    · rcases List.mem_map.mp h1 with ⟨p, _, hpr⟩
      subst hpr
      have := hkey.1
      simp [platformIdxRow] at this

theorem deletePlatform_key_gone {pid : Str} {s : DbState} (h : Synced s) :
    ∀ r ∈ (deletePlatform pid s).idx,
      keyOf r ≠ ((("platform").toList : Str), (Sum.inr pid : Ident)) := by
  intro r hr hk
  have hkey : r.item_type = ("platform").toList ∧ r.row_id = Sum.inr pid := by
    unfold keyOf at hk
    exact ⟨congrArg Prod.fst hk, congrArg Prod.snd hk⟩
  unfold deletePlatform at hr
  by_cases hany : s.platforms.any (fun p => decide (p.id = pid))
  · rw [if_pos hany] at hr
    have hcond := (List.mem_filter.mp hr).2
    simp only [decide_eq_true_eq] at hcond
    exact hcond ⟨hkey.2, hkey.1⟩
  · rw [if_neg hany] at hr
    have hr2 : r ∈ s.games.map gameIdxRow ++ s.platforms.map platformIdxRow :=
      h.1.mem_iff.mp hr
    rcases List.mem_append.mp hr2 with h1 | h1
    · rcases List.mem_map.mp h1 with ⟨g, _, hgr⟩
      subst hgr
      have := hkey.1
      simp [gameIdxRow] at this
    · rcases List.mem_map.mp h1 with ⟨p, hp, hpr⟩
      subst hpr
      have hpid : p.id = pid := by
        have := hkey.2
        simpa [platformIdxRow] using this
      apply hany
      rw [List.any_eq_true]
      exact ⟨p, hp, by simp [hpid]⟩

/-- C7: the schema triggers keep `search_idx` synchronized with the catalog
inside each mutation: every insert, update and delete of a game or platform
preserves the invariant that the index rows are exactly one derived row per
entity with the entity's current name and trigger-derived context; and after
deleting an entity of either type - game or platform - a search against the
resulting index (with an oracle that only returns index rows, as the FTS
engine does) never returns that entity. -/
theorem C7_index_sync :
    (∀ (g : Game) (s : DbState), Synced s → g.id ∉ s.games.map Game.id →
      Synced (insertGame g s)) ∧
    (∀ (gid : Nat) (u : Game → Game) (s : DbState), Synced s → (∀ g, (u g).id = g.id) →
      Synced (updateGame gid u s)) ∧
    (∀ (gid : Nat) (s : DbState), Synced s → Synced (deleteGame gid s)) ∧
    (∀ (p : Platform) (s : DbState), Synced s → Synced (insertPlatform p s)) ∧
    (∀ (pid : Str) (u : Platform → Platform) (s : DbState), Synced s →
      (∀ p, (u p).id = p.id) → Synced (updatePlatform pid u s)) ∧
    (∀ (pid : Str) (s : DbState), Synced s → Synced (deletePlatform pid s)) ∧
    (∀ (gid : Nat) (s : DbState) (fts : Str → List Row) (q : Str) (limit : Nat)
      (sug : Suggestion), Synced s → (∀ t, ∀ r ∈ fts t, r ∈ (deleteGame gid s).idx) →
      sug ∈ autocomplete fts (deleteGame gid s).idx q limit →
      sugKey sug ≠ ((("game").toList : Str), (Sum.inl gid : Ident))) ∧
    (∀ (pid : Str) (s : DbState) (fts : Str → List Row) (q : Str) (limit : Nat)
      (sug : Suggestion), Synced s → (∀ t, ∀ r ∈ fts t, r ∈ (deletePlatform pid s).idx) →
      sug ∈ autocomplete fts (deletePlatform pid s).idx q limit →
      sugKey sug ≠ ((("platform").toList : Str), (Sum.inr pid : Ident))) := by
  refine ⟨fun g s h hf => synced_insertGame h hf,
    fun gid u s h hu => synced_updateGame h hu,
    fun gid s h => synced_deleteGame h,
    fun p s h => synced_insertPlatform h,
    fun pid u s h hu => synced_updatePlatform h hu,
    fun pid s h => synced_deletePlatform h, ?_, ?_⟩
  · intro gid s fts q limit sug hsync horacle hmem
    rcases autocomplete_provenance hmem with ⟨r, hr, hs⟩ | ⟨r, hr, hs⟩ | ⟨r, hr, _, _, hs⟩ <;>
      subst hs
    · exact deleteGame_key_gone hsync r (horacle _ r hr)
    · exact deleteGame_key_gone hsync r (horacle _ r hr)
    · exact deleteGame_key_gone hsync r hr
  · intro pid s fts q limit sug hsync horacle hmem
    rcases autocomplete_provenance hmem with ⟨r, hr, hs⟩ | ⟨r, hr, hs⟩ | ⟨r, hr, _, _, hs⟩ <;>
      subst hs
    · exact deletePlatform_key_gone hsync r (horacle _ r hr)
    · exact deletePlatform_key_gone hsync r (horacle _ r hr)
    · exact deletePlatform_key_gone hsync r hr

/-- C7, witness: inserting a game into the empty synchronized state. -/
theorem C7_index_sync_witness :
    Synced (insertGame ⟨1, ("x").toList, none, none, none, none⟩ ⟨[], [], []⟩) :=
  C7_index_sync.1 ⟨1, ("x").toList, none, none, none, none⟩ ⟨[], [], []⟩
    ⟨by decide, by decide, by decide⟩ (by decide)
